import Mathlib

/-!
Verification of the per-track MIDI event store (`Track` class).

The TypeScript source keeps events as loosely-typed records.  We embed an
event as a structure whose fields are the properties the class reads or
writes; a field value `none` models a JavaScript property that is absent
(`undefined`).  Numeric MIDI data is modelled with `Int`; the
`microsecondsPerBeat` payload is modelled with `Rat` because the tempo
accessors divide by it.  The `value` payload can hold either a number or a
string (the `name` setter stores a string in it), so it gets a small sum
type.

Modelling conventions, noted where the JavaScript semantics is wider:
* `e.deltaTime + base` with an absent `deltaTime` would produce `NaN` in
  JavaScript; we model the absent operand as `0`.  The specification's data
  model requires `deltaTime` to be present whenever `tick` is absent, so no
  claim depends on this corner.
* An update record models only present keys; a key explicitly set to
  `undefined` (which `Object.assign` would copy) is not representable.
* `mobx` reactivity and `serializr` annotations are not modelled: the
  store is single-threaded and a "change notification" is exactly a
  non-`null` return from the update primitive.
-/

/-- A JavaScript value stored in the duck-typed `value` property: the
volume/pan/program accessors store numbers there, while the (buggy) `name`
setter stores a string. -/
inductive JsVal where
  | num (n : Int)
  | str (s : String)
deriving DecidableEq, Repr

/-- An event record.  `etype` embeds the source's `type` property (`type` is
a reserved word in Lean); `none` everywhere means the property is absent. -/
structure MidiEvent where
  id : Int := 0
  tick : Option Int := none
  deltaTime : Option Int := none
  etype : Option String := none
  subtype : Option String := none
  channel : Option Int := none
  controllerType : Option Int := none
  value : Option JsVal := none
  text : Option String := none
  microsecondsPerBeat : Option Rat := none
  duration : Option Int := none
  velocity : Option Int := none
deriving DecidableEq, Repr

/-- An update record (the `obj` argument of `_updateEvent`): each field is
present (`some`) or absent (`none`).  A present field overwrites the stored
event's field on merge, exactly like `Object.assign`. -/
structure EventPatch where
  id : Option Int := none
  tick : Option Int := none
  deltaTime : Option Int := none
  etype : Option String := none
  subtype : Option String := none
  channel : Option Int := none
  controllerType : Option Int := none
  value : Option JsVal := none
  text : Option String := none
  microsecondsPerBeat : Option Rat := none
  duration : Option Int := none
  velocity : Option Int := none
deriving DecidableEq, Repr

/-- The track state: the observable fields of the `Track` class.  The
"end of track" accessors are derived views over `events`, not stored. -/
structure Track where
  events : List MidiEvent := []
  lastEventId : Int := 0
  channel : Option Int := none
deriving DecidableEq, Repr

def Track.empty : Track := {}

/-- `Object.assign({}, anObj, obj)`: present patch fields overwrite. -/
def applyPatch (e : MidiEvent) (p : EventPatch) : MidiEvent where
  id := p.id.getD e.id
  tick := p.tick.or e.tick
  deltaTime := p.deltaTime.or e.deltaTime
  etype := p.etype.or e.etype
  subtype := p.subtype.or e.subtype
  channel := p.channel.or e.channel
  controllerType := p.controllerType.or e.controllerType
  value := p.value.or e.value
  text := p.text.or e.text
  microsecondsPerBeat := p.microsecondsPerBeat.or e.microsecondsPerBeat
  duration := p.duration.or e.duration
  velocity := p.velocity.or e.velocity

namespace Track

/-- `getEventById = (id) => _.find(this.events, e => e.id === id)`. -/
def getEventById (t : Track) (i : Int) : Option MidiEvent :=
  t.events.find? (fun e => e.id == i)

/-- Replace the first event carrying the given id; `Object.assign(anObj, obj)`
mutates the found object in place, which in a list model is a first-match
replacement. -/
def setFirstById : List MidiEvent → Int → MidiEvent → List MidiEvent
  | [], _, _ => []
  | x :: xs, i, v => if x.id == i then v :: xs else x :: setFirstById xs i v

/-- `_updateEvent(id, obj)`: look the event up, merge, and skip the write when
the merge is deep-equal to the stored object.  Returns the new track together
with the updated event (`none` models the `null` return, i.e. no change
notification). -/
def updateEventRaw (t : Track) (i : Int) (p : EventPatch) :
    Track × Option MidiEvent :=
  match t.getEventById i with
  | none => (t, none)
  | some anObj =>
    let newObj := applyPatch anObj p
    if newObj = anObj then (t, none)
    else ({ t with events := setFirstById t.events i newObj }, some newObj)

/-- Sort key of `_.sortBy(this.events, "tick")`; stored events always carry a
tick, so the default for an absent one is immaterial. -/
def sortKey (e : MidiEvent) : Int := e.tick.getD 0

def tickLe (a b : MidiEvent) : Prop := sortKey a ≤ sortKey b

instance : DecidableRel tickLe := fun a b =>
  inferInstanceAs (Decidable (sortKey a ≤ sortKey b))

instance : IsTotal MidiEvent tickLe :=
  ⟨fun a b => Int.le_total (sortKey a) (sortKey b)⟩

instance : IsTrans MidiEvent tickLe :=
  ⟨fun _ _ _ hab hbc => le_trans hab hbc⟩

/-- `sortByTick`: a stable sort of `events` by `tick` (lodash `sortBy`). -/
def sortByTick (t : Track) : Track :=
  { t with events := t.events.insertionSort tickLe }

/-- `e.tick + (e.duration || 0)`, the extent of one event. -/
def evEnd (e : MidiEvent) : Int := e.tick.getD 0 + e.duration.getD 0

/-- Maximum extent over the events (lodash `max`, `undefined` on `[]`). -/
def maxEnd : List MidiEvent → Option Int
  | [] => none
  | e :: es =>
    some (match maxEnd es with
          | none => evEnd e
          | some m => max (evEnd e) m)

/-- The predicate of `_findEndOfTrackEvents`. -/
def isEndOfTrackB (e : MidiEvent) : Bool := e.subtype == some "endOfTrack"

/--
`updateEvent(id, obj)`, fueled.  The source method triggers
`updateEndOfTrack()` after a successful merge, and that recomputation writes
`this.endOfTrack = max(...)`, whose setter is
`_updateLast(_findEndOfTrackEvents(), { tick })` — a recursive call back into
`updateEvent`.  The recursion is not structurally bounded (an `endOfTrack`
event with a positive `duration` makes it diverge), so the embedding takes a
fuel parameter and returns `none` when the fuel runs out; `some` results are
exactly the terminating runs.  The `updateEndOfTrack` body is inlined here so
that the recursion is structural in the fuel; `updateEndOfTrackF` below
restates it and `updateEventF_succ` proves the two agree.
-/
def updateEventF : Nat → Track → Int → EventPatch → Option (Track × Option MidiEvent)
  | 0, _, _, _ => none
  | Nat.succ n, t, i, p =>
    match updateEventRaw t i p with
    | (_, none) => some (t, none)
    | (t1, some ev) =>
      match (t1.events.filter isEndOfTrackB).getLast? with
      | none => some ((sortByTick t1), some ev)
      | some e =>
        match updateEventF n t1 e.id { tick := maxEnd t1.events } with
        | none => none
        | some (t2, _) => some ((sortByTick t2), some ev)

/-- `updateEndOfTrack()`: `this.endOfTrack = max over events of
(tick + (duration || 0))`, where the `endOfTrack` setter is
`_updateLast(_findEndOfTrackEvents(), { tick })`. -/
def updateEndOfTrackF (n : Nat) (t : Track) : Option Track :=
  match (t.events.filter isEndOfTrackB).getLast? with
  | none => some t
  | some e => (updateEventF n t e.id { tick := maxEnd t.events }).map (·.1)

theorem updateEventF_succ (n : Nat) (t : Track) (i : Int) (p : EventPatch) :
    updateEventF (n + 1) t i p =
      match updateEventRaw t i p with
      | (_, none) => some (t, none)
      | (t1, some ev) =>
        (updateEndOfTrackF n t1).map (fun t2 => (sortByTick t2, some ev)) := by
  show (match updateEventRaw t i p with
    | (_, none) => some (t, none)
    | (t1, some ev) =>
      match (t1.events.filter isEndOfTrackB).getLast? with
      | none => some ((sortByTick t1), some ev)
      | some e =>
        match updateEventF n t1 e.id { tick := maxEnd t1.events } with
        | none => none
        | some (t2, _) => some ((sortByTick t2), some ev)) = _
  cases h : updateEventRaw t i p with
  | mk t1 r =>
    cases r with
    | none => rfl
    | some ev =>
      simp only [updateEndOfTrackF]
      cases hl : (t1.events.filter isEndOfTrackB).getLast? with
      | none => rfl
      | some e =>
        cases h2 : updateEventF n t1 e.id { tick := maxEnd t1.events } with
        | none => simp [h2]
        | some r2 => simp [h2]

/-- `_updateLast(arr, obj)`: update the last element of a filtered view. -/
def updateLastF (n : Nat) (t : Track) (arr : List MidiEvent) (p : EventPatch) :
    Option Track :=
  match arr.getLast? with
  | none => some t
  | some e => (updateEventF n t e.id p).map (·.1)

/-- `updateEvents(events)`: a transaction of raw merges (each record carries
the id of its target), then one end-of-track recomputation and one sort. -/
def updateEventsF (n : Nat) (t : Track) (ps : List EventPatch) : Option Track :=
  let t1 := ps.foldl
    (fun acc p =>
      match p.id with
      | some i => (updateEventRaw acc i p).1
      | none => acc)
    t
  (updateEndOfTrackF n t1).map sortByTick

/--
`_addEvent(e)`: assign the next id, push, resolve an absent `tick` from
`deltaTime` plus the tick of `getEventById(this.lastEventId)` — the lookup
uses the already-incremented counter, so it reads the *next* id slot — and
stamp `channel` on channel-typered events.  The JavaScript would produce
`NaN` from `deltaTime + undefined`; both absent operands are modelled as `0`
(unreachable while ids stay below the counter, as proved in `trackC10`).
-/
def addEventRaw (t : Track) (e : MidiEvent) : Track × MidiEvent :=
  let e1 := { e with id := t.lastEventId }
  let pushed := t.events ++ [e1]
  let nextId := t.lastEventId + 1
  let e2 :=
    if e1.tick = none then
      let lastEvent := pushed.find? (fun x => x.id == nextId)
      { e1 with tick := some (e1.deltaTime.getD 0 + ((lastEvent.bind (·.tick)).getD 0)) }
    else e1
  let e3 := if e2.etype = some "channel" then { e2 with channel := t.channel } else e2
  ({ t with events := t.events ++ [e3], lastEventId := nextId }, e3)

/-- `didAddEvent()`: `updateEndOfTrack(); sortByTick()`. -/
def didAddEventF (n : Nat) (t : Track) : Option Track :=
  (updateEndOfTrackF n t).map sortByTick

/-- `addEvent(e)`; the returned event is the snapshot at insertion time (the
source returns the live object, whose `id` is never mutated afterwards). -/
def addEventF (n : Nat) (t : Track) (e : MidiEvent) : Option (Track × MidiEvent) :=
  let te := addEventRaw t e
  (didAddEventF n te.1).map (fun t2 => (t2, te.2))

/-- `addEvents(events)`: insert each in order, then one `didAddEvent`. -/
def addEventsF (n : Nat) (t : Track) (es : List MidiEvent) :
    Option (Track × List MidiEvent) :=
  let acc := es.foldl
    (fun (acc : Track × List MidiEvent) e =>
      let te := addEventRaw acc.1 e
      (te.1, acc.2 ++ [te.2]))
    (t, [])
  (didAddEventF n acc.1).map (fun t2 => (t2, acc.2))

/-- `removeEvent(id)`: `_.without` removes the found object (removal is by
object identity in the source; while ids are distinct this equals removing
the structurally equal events), then `updateEndOfTrack()` — note: no sort. -/
def removeEventF (n : Nat) (t : Track) (i : Int) : Option Track :=
  let t1 :=
    match t.getEventById i with
    | none => t
    | some obj => { t with events := t.events.filter (fun x => x != obj) }
  updateEndOfTrackF n t1

/-- `removeEvents(ids)`: `_.difference` against the looked-up objects. -/
def removeEventsF (n : Nat) (t : Track) (ids : List Int) : Option Track :=
  let objs := ids.filterMap t.getEventById
  let t1 := { t with events := t.events.filter (fun x => !objs.contains x) }
  updateEndOfTrackF n t1

/-- `changeChannel(channel)`: set the track channel and rewrite the `channel`
field of every `"channel"`-typed event (no sort, no recompute). -/
def changeChannel (t : Track) (c : Int) : Track :=
  { t with
    channel := some c
    events := t.events.map
      (fun e => if e.etype = some "channel" then { e with channel := some c } else e) }

/-- The key filter of `createOrUpdate`. -/
def keyMatchB (ne : MidiEvent) (e : MidiEvent) : Bool :=
  e.etype == ne.etype && e.subtype == ne.subtype && e.tick == ne.tick

/-- `{ ...newEvent, id: anId }`: the candidate spread into an update record. -/
def patchOfEvent (ne : MidiEvent) (anId : Int) : EventPatch where
  id := some anId
  tick := ne.tick
  deltaTime := ne.deltaTime
  etype := ne.etype
  subtype := ne.subtype
  channel := ne.channel
  controllerType := ne.controllerType
  value := ne.value
  text := ne.text
  microsecondsPerBeat := ne.microsecondsPerBeat
  duration := ne.duration
  velocity := ne.velocity

/-- `createOrUpdate(newEvent)`: update every `(type, subtype, tick)` match in
one transaction, preserving each matched event's id, or insert.  The returned
event models `events[0]` after its in-place update (resp. the insertion). -/
def createOrUpdateF (n : Nat) (t : Track) (ne : MidiEvent) :
    Option (Track × MidiEvent) :=
  match t.events.filter (keyMatchB ne) with
  | [] => addEventF n t ne
  | m :: ms =>
    ((m :: ms).foldlM
      (fun acc (e : MidiEvent) =>
        (updateEventF n acc e.id (patchOfEvent ne e.id)).map (·.1))
      t).map (fun tfin => (tfin, (tfin.getEventById m.id).getD m))

/-! Derived-parameter views: the six `_findXxx` filters and their get/set pairs.
`lastValue(arr, prop)` is `last && last[prop]`, i.e. the named field of the
last match, or absent. -/

def findTrackNameEvents (t : Track) : List MidiEvent :=
  t.events.filter (fun e => e.subtype == some "trackName")

def findProgramChangeEvents (t : Track) : List MidiEvent :=
  t.events.filter (fun e => e.subtype == some "programChange")

def findEndOfTrackEvents (t : Track) : List MidiEvent :=
  t.events.filter isEndOfTrackB

def findVolumeEvents (t : Track) : List MidiEvent :=
  t.events.filter (fun e => e.subtype == some "controller" && e.controllerType == some 7)

def findPanEvents (t : Track) : List MidiEvent :=
  t.events.filter (fun e => e.subtype == some "controller" && e.controllerType == some 10)

def findSetTempoEvents (t : Track) : List MidiEvent :=
  t.events.filter (fun e => e.subtype == some "setTempo")

/-- `get name()`: the `text` field of the last `trackName` event. -/
def name (t : Track) : Option String :=
  (t.findTrackNameEvents).getLast?.bind (·.text)

/-- `set name(value)`: the source writes the record `{ value }` — the `value`
field, not `text` (shorthand-property slip, see `trackC4`). -/
def setNameF (n : Nat) (t : Track) (value : String) : Option Track :=
  updateLastF n t t.findTrackNameEvents { value := some (JsVal.str value) }

def volume (t : Track) : Option JsVal :=
  (t.findVolumeEvents).getLast?.bind (·.value)

def setVolumeF (n : Nat) (t : Track) (value : Int) : Option Track :=
  updateLastF n t t.findVolumeEvents { value := some (JsVal.num value) }

def pan (t : Track) : Option JsVal :=
  (t.findPanEvents).getLast?.bind (·.value)

def setPanF (n : Nat) (t : Track) (value : Int) : Option Track :=
  updateLastF n t t.findPanEvents { value := some (JsVal.num value) }

/-- `get endOfTrack()`: the `tick` of the last `endOfTrack` event. -/
def endOfTrack (t : Track) : Option Int :=
  (t.findEndOfTrackEvents).getLast?.bind (·.tick)

def setEndOfTrackF (n : Nat) (t : Track) (tick : Option Int) : Option Track :=
  updateLastF n t t.findEndOfTrackEvents { tick := tick }

def programNumber (t : Track) : Option JsVal :=
  (t.findProgramChangeEvents).getLast?.bind (·.value)

def setProgramNumberF (n : Nat) (t : Track) (value : Int) : Option Track :=
  updateLastF n t t.findProgramChangeEvents { value := some (JsVal.num value) }

/-- `get tempo()`: `60000000 / microsecondsPerBeat` of the last `setTempo`
event.  With no such event the JavaScript divides by `undefined` and yields
`NaN`; the embedding propagates the absence as `none`. -/
def tempo (t : Track) : Option Rat :=
  ((t.findSetTempoEvents).getLast?.bind (·.microsecondsPerBeat)).map
    (fun q => 60000000 / q)

def setTempoF (n : Nat) (t : Track) (bpm : Rat) : Option Track :=
  updateLastF n t t.findSetTempoEvents
    { microsecondsPerBeat := some (60000000 / bpm) }

def isConductorTrack (t : Track) : Prop := t.channel = none

def isRhythmTrack (t : Track) : Prop := t.channel = some 9

/-! Invariants and reachability. -/

/-- Forget the tick of an `endOfTrack` event: the end-of-track recomputation
rewrites exactly those ticks, so the event multiset modulo this map is a
frame that update operations preserve. -/
def stripEotTick (e : MidiEvent) : MidiEvent :=
  if isEndOfTrackB e then { e with tick := none } else e

/-- The end-of-track marker is in sync: the last `endOfTrack` event (the one
`get endOfTrack` reads) carries `max over events of (tick + duration-or-0)`. -/
def EotFixL (l : List MidiEvent) : Prop :=
  ∀ e, (l.filter isEndOfTrackB).getLast? = some e → e.tick = maxEnd l

def EotFix (t : Track) : Prop := EotFixL t.events

/-- Every stored event has a resolved tick (insertion always resolves it). -/
def TicksSome (l : List MidiEvent) : Prop := ∀ e ∈ l, (e.tick).isSome = true

/-- Every stored duration is nonnegative. -/
def DursNN (l : List MidiEvent) : Prop := ∀ e ∈ l, 0 ≤ (e.duration).getD 0

/-- Stored ids are pairwise distinct. -/
def IdsNodup (l : List MidiEvent) : Prop := (l.map (fun e => e.id)).Nodup

/-- Every stored id is below the allocator counter. -/
def IdBound (t : Track) : Prop := ∀ e ∈ t.events, e.id < t.lastEventId

/-- The pointwise well-formedness bundle threaded through the fueled update
recursion. -/
def Inv0 (t : Track) : Prop :=
  IdsNodup t.events ∧ TicksSome t.events ∧ DursNN t.events

/-- An update record within the specification's domain for target `i`: it
does not relabel the target's id and does not introduce a negative
duration. -/
def GoodPatch (p : EventPatch) (i : Int) : Prop :=
  (p.id = none ∨ p.id = some i) ∧ 0 ≤ (p.duration).getD 0

/-- The inductive invariant for spec-domain reachable states: pointwise
well-formedness, allocator bound, and a synchronised end-of-track marker. -/
def InvNN (t : Track) : Prop := Inv0 t ∧ IdBound t ∧ EotFix t

/-- States reachable from the empty track by terminating runs of the public
mutations, with unrestricted arguments. -/
inductive Reachable : Track → Prop where
  | empty : Reachable Track.empty
  | addEvent (n : Nat) (t : Track) (e : MidiEvent) (t' : Track) (r : MidiEvent) :
      Reachable t → addEventF n t e = some (t', r) → Reachable t'
  | addEvents (n : Nat) (t : Track) (es : List MidiEvent) (t' : Track)
      (rs : List MidiEvent) :
      Reachable t → addEventsF n t es = some (t', rs) → Reachable t'
  | updateEvent (n : Nat) (t : Track) (i : Int) (p : EventPatch) (t' : Track)
      (r : Option MidiEvent) :
      Reachable t → updateEventF n t i p = some (t', r) → Reachable t'
  | updateEvents (n : Nat) (t : Track) (ps : List EventPatch) (t' : Track) :
      Reachable t → updateEventsF n t ps = some t' → Reachable t'
  | removeEvent (n : Nat) (t : Track) (i : Int) (t' : Track) :
      Reachable t → removeEventF n t i = some t' → Reachable t'
  | removeEvents (n : Nat) (t : Track) (ids : List Int) (t' : Track) :
      Reachable t → removeEventsF n t ids = some t' → Reachable t'
  | createOrUpdate (n : Nat) (t : Track) (ne : MidiEvent) (t' : Track)
      (r : MidiEvent) :
      Reachable t → createOrUpdateF n t ne = some (t', r) → Reachable t'
  | changeChannel (t : Track) (c : Int) :
      Reachable t → Reachable (Track.changeChannel t c)
  | setName (n : Nat) (t : Track) (s : String) (t' : Track) :
      Reachable t → setNameF n t s = some t' → Reachable t'
  | setVolume (n : Nat) (t : Track) (v : Int) (t' : Track) :
      Reachable t → setVolumeF n t v = some t' → Reachable t'
  | setPan (n : Nat) (t : Track) (v : Int) (t' : Track) :
      Reachable t → setPanF n t v = some t' → Reachable t'
  | setProgramNumber (n : Nat) (t : Track) (v : Int) (t' : Track) :
      Reachable t → setProgramNumberF n t v = some t' → Reachable t'
  | setTempo (n : Nat) (t : Track) (bpm : Rat) (t' : Track) :
      Reachable t → setTempoF n t bpm = some t' → Reachable t'
  | setEndOfTrack (n : Nat) (t : Track) (tk : Option Int) (t' : Track) :
      Reachable t → setEndOfTrackF n t tk = some t' → Reachable t'

/-- States reachable by the same mutations, restricted to the specification's
input domain: inserted events carry nonnegative durations, and update records
satisfy `GoodPatch` (no id relabelling, no negative durations).  The batch
`updateEvents` records target their own `id` field, so only the duration
restriction applies there. -/
inductive ReachableNN : Track → Prop where
  | empty : ReachableNN Track.empty
  | addEvent (n : Nat) (t : Track) (e : MidiEvent) (t' : Track) (r : MidiEvent) :
      ReachableNN t → 0 ≤ (e.duration).getD 0 →
      addEventF n t e = some (t', r) → ReachableNN t'
  | addEvents (n : Nat) (t : Track) (es : List MidiEvent) (t' : Track)
      (rs : List MidiEvent) :
      ReachableNN t → (∀ e ∈ es, 0 ≤ (e.duration).getD 0) →
      addEventsF n t es = some (t', rs) → ReachableNN t'
  | updateEvent (n : Nat) (t : Track) (i : Int) (p : EventPatch) (t' : Track)
      (r : Option MidiEvent) :
      ReachableNN t → GoodPatch p i →
      updateEventF n t i p = some (t', r) → ReachableNN t'
  | updateEvents (n : Nat) (t : Track) (ps : List EventPatch) (t' : Track) :
      ReachableNN t → (∀ p ∈ ps, 0 ≤ (p.duration).getD 0) →
      updateEventsF n t ps = some t' → ReachableNN t'
  | removeEvent (n : Nat) (t : Track) (i : Int) (t' : Track) :
      ReachableNN t → removeEventF n t i = some t' → ReachableNN t'
  | removeEvents (n : Nat) (t : Track) (ids : List Int) (t' : Track) :
      ReachableNN t → removeEventsF n t ids = some t' → ReachableNN t'
  | createOrUpdate (n : Nat) (t : Track) (ne : MidiEvent) (t' : Track)
      (r : MidiEvent) :
      ReachableNN t → 0 ≤ (ne.duration).getD 0 →
      createOrUpdateF n t ne = some (t', r) → ReachableNN t'
  | changeChannel (t : Track) (c : Int) :
      ReachableNN t → ReachableNN (Track.changeChannel t c)
  | setName (n : Nat) (t : Track) (s : String) (t' : Track) :
      ReachableNN t → setNameF n t s = some t' → ReachableNN t'
  | setVolume (n : Nat) (t : Track) (v : Int) (t' : Track) :
      ReachableNN t → setVolumeF n t v = some t' → ReachableNN t'
  | setPan (n : Nat) (t : Track) (v : Int) (t' : Track) :
      ReachableNN t → setPanF n t v = some t' → ReachableNN t'
  | setProgramNumber (n : Nat) (t : Track) (v : Int) (t' : Track) :
      ReachableNN t → setProgramNumberF n t v = some t' → ReachableNN t'
  | setTempo (n : Nat) (t : Track) (bpm : Rat) (t' : Track) :
      ReachableNN t → setTempoF n t bpm = some t' → ReachableNN t'
  | setEndOfTrack (n : Nat) (t : Track) (tk : Option Int) (t' : Track) :
      ReachableNN t → setEndOfTrackF n t tk = some t' → ReachableNN t'

/-- An insertion-or-removal operation, the alphabet of claim C3. -/
inductive InsOp where
  | addE (e : MidiEvent)
  | addMany (es : List MidiEvent)
  | removeE (i : Int)
  | removeMany (ids : List Int)

/-- Run a sequence of insertions and removals, collecting the ids assigned to
the inserted events in allocation order. -/
def runInsOpsF (n : Nat) (t : Track) : List InsOp → Option (Track × List Int)
  | [] => some (t, [])
  | op :: rest =>
    let step : Option (Track × List Int) :=
      match op with
      | InsOp.addE e => (addEventF n t e).map (fun r => (r.1, [r.2.id]))
      | InsOp.addMany es =>
        (addEventsF n t es).map (fun r => (r.1, r.2.map (fun x => x.id)))
      | InsOp.removeE i => (removeEventF n t i).map (fun t2 => (t2, []))
      | InsOp.removeMany ids => (removeEventsF n t ids).map (fun t2 => (t2, []))
    match step with
    | none => none
    | some (t1, ids1) =>
      match runInsOpsF n t1 rest with
      | none => none
      | some (t2, ids2) => some (t2, ids1 ++ ids2)

/-! Concrete events and tracks used to evaluate the operations. -/

def exNote5 : MidiEvent :=
  { id := 0, tick := some 5, etype := some "meta", subtype := some "noteOn" }

def exC1Track : Track := { events := [exNote5], lastEventId := 1 }

def exNameEvent : MidiEvent :=
  { id := 0, tick := some 0, etype := some "meta",
    subtype := some "trackName", text := some "A" }

def exNameTrack : Track := { events := [exNameEvent], lastEventId := 1 }

def exEot5 : MidiEvent :=
  { id := 0, tick := some 5, etype := some "meta",
    subtype := some "endOfTrack" }

def exNote10 : MidiEvent :=
  { id := 1, tick := some 10, etype := some "channel",
    subtype := some "noteOn" }

def exEotTrack : Track := { events := [exEot5, exNote10], lastEventId := 2 }

def exPatchTick3 : EventPatch := { tick := some 3 }

def exIdEvent : MidiEvent :=
  { id := 0, tick := some 0, etype := some "meta", subtype := some "noteOn" }

def exIdTrack : Track := { events := [exIdEvent], lastEventId := 1 }

def exC9Result : Track :=
  { events := [{ exIdEvent with tick := some 2 }], lastEventId := 1 }

def exNoteG : MidiEvent :=
  { id := 0, tick := some 10, etype := some "channel",
    subtype := some "noteOn" }

def exTrackG : Track := { events := [exNoteG], lastEventId := 1 }

def exEotCandidate : MidiEvent :=
  { id := 0, tick := some 5, etype := some "meta",
    subtype := some "endOfTrack" }

def exVolCand : MidiEvent :=
  { id := 0, tick := some 3, etype := some "channel",
    subtype := some "controller", controllerType := some 7,
    value := some (JsVal.num 100) }

def exVolCand2 : MidiEvent :=
  { id := 0, tick := some 3, etype := some "channel",
    subtype := some "controller", controllerType := some 7,
    value := some (JsVal.num 80) }

def exVolTrack1 : Track := { events := [exVolCand], lastEventId := 1 }

def exVolTrack2 : Track := { events := [exVolCand2], lastEventId := 1 }

def exChanEvent0 : MidiEvent :=
  { id := 0, tick := some 1, etype := some "channel",
    subtype := some "noteOn", channel := some 3 }

def exChanEvent1 : MidiEvent :=
  { id := 1, tick := some 2, etype := some "meta",
    subtype := some "trackName", text := some "x" }

def exChanTrack : Track :=
  { events := [exChanEvent0, exChanEvent1], lastEventId := 2 }

def exDeltaEvent : MidiEvent :=
  { id := 0, deltaTime := some 7, etype := some "meta",
    subtype := some "noteOn" }

def exC3Track2 : Track :=
  { events := [{ exNote5 with id := 1 }], lastEventId := 2 }

end Track

/-! Basic lemmas about the building blocks. -/

theorem optOrIdem {α : Type} (a b : Option α) : a.or (a.or b) = a.or b := by
  cases a <;> rfl

theorem optGetDIdem {α : Type} (a : Option α) (b : α) :
    a.getD (a.getD b) = a.getD b := by
  cases a <;> rfl

theorem applyPatch_idem (e : MidiEvent) (p : EventPatch) :
    applyPatch (applyPatch e p) p = applyPatch e p := by
  simp only [applyPatch, optOrIdem, optGetDIdem]

theorem applyPatch_id_of_none (e : MidiEvent) (p : EventPatch) (h : p.id = none) :
    (applyPatch e p).id = e.id := by
  simp [applyPatch, h]

namespace Track

theorem setFirstById_map_id (l : List MidiEvent) (i : Int) (v : MidiEvent)
    (hv : v.id = i) :
    (setFirstById l i v).map (fun e => e.id) = l.map (fun e => e.id) := by
  induction l with
  | nil => rfl
  | cons x xs ih =>
    by_cases hx : x.id = i
    · simp [setFirstById, hx, hv]
    · simp [setFirstById, hx, ih]

theorem mem_setFirstById {l : List MidiEvent} {i : Int} {v : MidiEvent}
    {y : MidiEvent} (hy : y ∈ setFirstById l i v) : y = v ∨ y ∈ l := by
  induction l with
  | nil => simp [setFirstById] at hy
  | cons x xs ih =>
    by_cases hx : x.id = i
    · simp [setFirstById, hx] at hy
      rcases hy with h | h
      · exact Or.inl h
      · exact Or.inr (List.mem_cons_of_mem _ h)
    · simp [setFirstById, hx] at hy
      rcases hy with h | h
      · exact Or.inr (h ▸ List.mem_cons_self _ _)
      · rcases ih h with h2 | h2
        · exact Or.inl h2
        · exact Or.inr (List.mem_cons_of_mem _ h2)

theorem setFirstById_mem_of_ne {l : List MidiEvent} {i : Int} {v : MidiEvent}
    {x : MidiEvent} (hx : x ∈ l) (hne : x.id ≠ i) : x ∈ setFirstById l i v := by
  induction l with
  | nil => simp at hx
  | cons y ys ih =>
    by_cases hy : y.id = i
    · rcases List.mem_cons.mp hx with h | h
      · exact absurd (h ▸ hy) hne
      · simp [setFirstById, hy]
        exact Or.inr h
    · rcases List.mem_cons.mp hx with h | h
      · simp [setFirstById, hy]
        exact Or.inl h
      · simp [setFirstById, hy]
        exact Or.inr (ih h)

theorem find?_by_id_unique (l : List MidiEvent) (hnd : IdsNodup l)
    (x : MidiEvent) (hx : x ∈ l) (j : Int) (hj : x.id = j) :
    l.find? (fun e => e.id == j) = some x := by
  induction l with
  | nil => simp at hx
  | cons y ys ih =>
    by_cases hy : y.id = j
    · have hxy : x = y := by
        rcases List.mem_cons.mp hx with h | h
        · exact h
        · exfalso
          have hmap : y.id ∈ ys.map (fun e => e.id) := by
            rw [hy, ← hj]
            exact List.mem_map_of_mem _ h
          exact (List.nodup_cons.mp hnd).1 hmap
      simp [List.find?, hy, hxy]
    · have hxys : x ∈ ys := by
        rcases List.mem_cons.mp hx with h | h
        · exact absurd (by rw [← h]; exact hj) hy
        · exact h
      have : (y.id == j) = false := by simp [hy]
      simp [List.find?, this]
      exact ih (List.nodup_cons.mp hnd).2 hxys

theorem setFirstById_eq_of_find? (l : List MidiEvent) (i : Int)
    (x v : MidiEvent) (hf : l.find? (fun e => e.id == i) = some x)
    (hstrip : stripEotTick v = stripEotTick x) :
    (setFirstById l i v).map stripEotTick = l.map stripEotTick := by
  induction l with
  | nil => simp at hf
  | cons y ys ih =>
    by_cases hy : y.id = i
    · have : x = y := by
        have := hf
        simp [List.find?, hy] at this
        exact this.symm
      simp [setFirstById, hy, hstrip, this]
    · have hb : (y.id == i) = false := by simp [hy]
      simp only [List.find?, hb] at hf
      simp [setFirstById, hy, ih hf]

end Track

/-! `maxEnd` characterisation. -/

namespace Track

theorem maxEnd_eq_none_iff (l : List MidiEvent) : maxEnd l = none ↔ l = [] := by
  cases l <;> simp [maxEnd]

theorem maxEnd_spec (l : List MidiEvent) (M : Int) (h : maxEnd l = some M) :
    (∃ e ∈ l, evEnd e = M) ∧ ∀ e ∈ l, evEnd e ≤ M := by
  induction l generalizing M with
  | nil => simp [maxEnd] at h
  | cons e es ih =>
    simp only [maxEnd] at h
    cases h2 : maxEnd es with
    | none =>
      have hes : es = [] := (maxEnd_eq_none_iff es).mp h2
      rw [h2] at h
      simp only [Option.some.injEq] at h
      subst hes
      refine ⟨⟨e, by simp, h⟩, ?_⟩
      intro e' he'
      simp at he'
      subst he'
      exact le_of_eq h
    | some m =>
      rw [h2] at h
      simp only [Option.some.injEq] at h
      rcases ih m h2 with ⟨⟨w, hw, hwm⟩, hub⟩
      constructor
      · rcases max_cases (evEnd e) m with ⟨hmax, _⟩ | ⟨hmax, _⟩
        · exact ⟨e, by simp, by rw [← h, hmax]⟩
        · exact ⟨w, List.mem_cons_of_mem _ hw, by rw [← h, hmax, ← hwm]⟩
      · intro e' he'
        rcases List.mem_cons.mp he' with h3 | h3
        · subst h3; rw [← h]; exact le_max_left _ _
        · rw [← h]; exact le_trans (hub e' h3) (le_max_right _ _)

theorem maxEnd_of_bounds (l : List MidiEvent) (M : Int)
    (hmem : ∃ e ∈ l, evEnd e = M) (hub : ∀ e ∈ l, evEnd e ≤ M) :
    maxEnd l = some M := by
  cases h : maxEnd l with
  | none =>
    rcases hmem with ⟨e, he, _⟩
    rw [(maxEnd_eq_none_iff l).mp h] at he
    simp at he
  | some M' =>
    rcases maxEnd_spec l M' h with ⟨⟨w, hw, hwm⟩, hub'⟩
    rcases hmem with ⟨e, he, hem⟩
    have h1 : M ≤ M' := hem ▸ hub' e he
    have h2 : M' ≤ M := hwm ▸ hub w hw
    rw [le_antisymm h1 h2]

theorem maxEnd_perm {l l' : List MidiEvent} (h : l.Perm l') :
    maxEnd l = maxEnd l' := by
  cases h2 : maxEnd l with
  | none =>
    have h3 := (maxEnd_eq_none_iff l).mp h2
    subst h3
    have h4 : l' = [] := h.symm.eq_nil
    subst h4
    rfl
  | some M =>
    rcases maxEnd_spec l M h2 with ⟨⟨w, hw, hwm⟩, hub⟩
    exact (maxEnd_of_bounds l' M ⟨w, h.mem_iff.mp hw, hwm⟩
      (fun e he => hub e (h.mem_iff.mpr he))).symm

/-! Sorted lists: the last element is maximal. -/

theorem sorted_getLast?_max (l : List MidiEvent) (hs : l.Sorted tickLe)
    (z : MidiEvent) (hz : l.getLast? = some z) :
    ∀ y ∈ l, sortKey y ≤ sortKey z := by
  induction l with
  | nil => simp at hz
  | cons x xs ih =>
    cases xs with
    | nil =>
      simp at hz
      subst hz
      intro y hy
      simp at hy
      subst hy
      exact le_refl _
    | cons b bs =>
      rw [List.getLast?_cons_cons] at hz
      intro y hy
      rcases List.mem_cons.mp hy with h | h
      · subst h
        have hzmem : z ∈ b :: bs := List.mem_of_mem_getLast? hz
        exact List.rel_of_sorted_cons hs z hzmem
      · exact ih ((List.sorted_cons.mp hs).2) hz y h

end Track

/-! `stripEotTick` facts. -/

namespace Track

theorem stripEotTick_id (e : MidiEvent) : (stripEotTick e).id = e.id := by
  unfold stripEotTick
  split <;> rfl

theorem stripEotTick_subtype (e : MidiEvent) :
    (stripEotTick e).subtype = e.subtype := by
  unfold stripEotTick
  split <;> rfl

theorem stripEotTick_etype (e : MidiEvent) :
    (stripEotTick e).etype = e.etype := by
  unfold stripEotTick
  split <;> rfl

theorem stripEotTick_of_not_eot {e : MidiEvent} (h : isEndOfTrackB e = false) :
    stripEotTick e = e := by
  unfold stripEotTick
  simp [h]

theorem stripEotTick_tick_patch {e : MidiEvent} (h : isEndOfTrackB e = true)
    (x : Option Int) : stripEotTick { e with tick := x } = stripEotTick e := by
  have h2 : isEndOfTrackB { e with tick := x } = true := h
  unfold stripEotTick
  simp [h, h2]

end Track

/-! `updateEventRaw` characterisation. -/

namespace Track

theorem updateEventRaw_none_fst {t : Track} {i : Int} {p : EventPatch}
    {t1 : Track} (h : updateEventRaw t i p = (t1, none)) : t1 = t := by
  unfold updateEventRaw at h
  cases hf : t.getEventById i with
  | none =>
    rw [hf] at h
    simp at h
    exact h.symm
  | some x =>
    rw [hf] at h
    by_cases he : applyPatch x p = x
    · simp [he] at h; exact h.symm
    · simp [he] at h

theorem updateEventRaw_none_merge {t : Track} {i : Int} {p : EventPatch}
    {t1 : Track} (h : updateEventRaw t i p = (t1, none)) :
    ∀ e, t.getEventById i = some e → applyPatch e p = e := by
  intro e hf
  unfold updateEventRaw at h
  rw [hf] at h
  by_cases he : applyPatch e p = e
  · exact he
  · simp [he] at h

theorem updateEventRaw_some_spec {t : Track} {i : Int} {p : EventPatch}
    {t1 : Track} {ev : MidiEvent} (h : updateEventRaw t i p = (t1, some ev)) :
    ∃ x, t.getEventById i = some x ∧ ev = applyPatch x p ∧ ev ≠ x ∧
      t1 = { t with events := setFirstById t.events i ev } := by
  unfold updateEventRaw at h
  cases hf : t.getEventById i with
  | none => rw [hf] at h; simp at h
  | some x =>
    rw [hf] at h
    by_cases he : applyPatch x p = x
    · simp [he] at h
    · simp [he] at h
      obtain ⟨h1, h2⟩ := h
      subst h2
      exact ⟨x, rfl, rfl, he, h1.symm⟩

end Track

/-! Sortedness: every successful update either leaves the track untouched or
ends with `sortByTick`. -/

namespace Track

theorem sortByTick_sorted (t : Track) : (sortByTick t).events.Sorted tickLe :=
  List.sorted_insertionSort tickLe t.events

theorem sortByTick_perm (t : Track) : (sortByTick t).events.Perm t.events :=
  List.perm_insertionSort tickLe t.events

theorem updateEventF_sorted_cases {n : Nat} {t : Track} {i : Int}
    {p : EventPatch} {t' : Track} {r : Option MidiEvent}
    (h : updateEventF n t i p = some (t', r)) :
    (t' = t ∧ r = none) ∨ t'.events.Sorted tickLe := by
  cases n with
  | zero => simp [updateEventF] at h
  | succ n =>
    rw [updateEventF_succ] at h
    cases hr : updateEventRaw t i p with
    | mk t1 ro =>
      rw [hr] at h
      cases ro with
      | none =>
        simp at h
        exact Or.inl ⟨h.1.symm, h.2.symm⟩
      | some ev =>
        obtain ⟨t2, _, h2⟩ := Option.map_eq_some'.mp h
        have : t' = sortByTick t2 := by
          have := congrArg Prod.fst h2
          exact this.symm
        exact Or.inr (this ▸ sortByTick_sorted t2)

theorem updateEndOfTrackF_sorted_cases {n : Nat} {t t2 : Track}
    (h : updateEndOfTrackF n t = some t2) :
    t2 = t ∨ t2.events.Sorted tickLe := by
  unfold updateEndOfTrackF at h
  cases hl : (t.events.filter isEndOfTrackB).getLast? with
  | none =>
    rw [hl] at h
    simp at h
    exact Or.inl h.symm
  | some e =>
    rw [hl] at h
    obtain ⟨⟨ta, ra⟩, hu, hmap⟩ := Option.map_eq_some'.mp h
    rcases updateEventF_sorted_cases hu with ⟨hteq, _⟩ | hs
    · exact Or.inl (by rw [← hmap, hteq])
    · exact Or.inr (by rw [← hmap]; exact hs)

theorem updateLastF_sorted_cases {n : Nat} {t : Track} {arr : List MidiEvent}
    {p : EventPatch} {t2 : Track}
    (h : updateLastF n t arr p = some t2) :
    t2 = t ∨ t2.events.Sorted tickLe := by
  unfold updateLastF at h
  cases hl : arr.getLast? with
  | none =>
    rw [hl] at h
    simp at h
    exact Or.inl h.symm
  | some e =>
    rw [hl] at h
    obtain ⟨⟨ta, ra⟩, hu, hmap⟩ := Option.map_eq_some'.mp h
    rcases updateEventF_sorted_cases hu with ⟨hteq, _⟩ | hs
    · exact Or.inl (by rw [← hmap, hteq])
    · exact Or.inr (by rw [← hmap]; exact hs)

/-! State frame: the fueled updates never touch `lastEventId` or `channel`. -/

theorem updateEventRaw_fst_frame (t : Track) (i : Int) (p : EventPatch) :
    (updateEventRaw t i p).1.lastEventId = t.lastEventId ∧
      (updateEventRaw t i p).1.channel = t.channel := by
  unfold updateEventRaw
  cases t.getEventById i with
  | none => exact ⟨rfl, rfl⟩
  | some x =>
    by_cases he : applyPatch x p = x
    · simp [he]
    · simp [he]

theorem updateEventF_frame : ∀ (n : Nat) {t : Track} {i : Int}
    {p : EventPatch} {t' : Track} {r : Option MidiEvent},
    updateEventF n t i p = some (t', r) →
    t'.lastEventId = t.lastEventId ∧ t'.channel = t.channel := by
  intro n
  induction n with
  | zero =>
    intro t i p t' r h
    simp [updateEventF] at h
  | succ n ih =>
    intro t i p t' r h
    rw [updateEventF_succ] at h
    cases hr : updateEventRaw t i p with
    | mk t1 ro =>
      rw [hr] at h
      cases ro with
      | none =>
        simp at h
        rw [← h.1]
        exact ⟨rfl, rfl⟩
      | some ev =>
        obtain ⟨t2, hu, h2⟩ := Option.map_eq_some'.mp h
        have ht1 : t1.lastEventId = t.lastEventId ∧ t1.channel = t.channel := by
          have := updateEventRaw_fst_frame t i p
          rw [hr] at this
          exact this
        have ht2 : t2.lastEventId = t1.lastEventId ∧ t2.channel = t1.channel := by
          unfold updateEndOfTrackF at hu
          cases hl : (t1.events.filter isEndOfTrackB).getLast? with
          | none =>
            rw [hl] at hu
            simp at hu
            rw [hu]
            exact ⟨rfl, rfl⟩
          | some e =>
            rw [hl] at hu
            obtain ⟨pr, hu2, hmap⟩ := Option.map_eq_some'.mp hu
            have := ih (t := t1) (p := { tick := maxEnd t1.events }) (r := pr.2)
              (by rw [hu2])
            rw [hmap] at this
            exact this
        have ht' : t' = sortByTick t2 := (congrArg Prod.fst h2).symm
        rw [ht']
        exact ⟨ht2.1.trans ht1.1, ht2.2.trans ht1.2⟩

theorem updateEndOfTrackF_frame {n : Nat} {t t2 : Track}
    (h : updateEndOfTrackF n t = some t2) :
    t2.lastEventId = t.lastEventId ∧ t2.channel = t.channel := by
  unfold updateEndOfTrackF at h
  cases hl : (t.events.filter isEndOfTrackB).getLast? with
  | none =>
    rw [hl] at h
    simp at h
    rw [h]
    exact ⟨rfl, rfl⟩
  | some e =>
    rw [hl] at h
    obtain ⟨pr, hu, hmap⟩ := Option.map_eq_some'.mp h
    have := updateEventF_frame n (r := pr.2) (by rw [hu])
    rw [hmap] at this
    exact this

end Track

/-! Event-multiset frame: a fueled update permutes the events and rewrites
only the merged target and the ticks of `endOfTrack` events. -/

namespace Track

theorem applyPatch_tick_only (e : MidiEvent) (m : Option Int) :
    applyPatch e { tick := m } = { e with tick := m.or e.tick } := rfl

theorem map_id_of_map_strip {l l' : List MidiEvent}
    (h : (l.map stripEotTick).Perm (l'.map stripEotTick)) :
    (l.map (fun e => e.id)).Perm (l'.map (fun e => e.id)) := by
  have h2 := h.map (fun e => e.id)
  rw [List.map_map, List.map_map] at h2
  have he : ((fun e => e.id) ∘ stripEotTick) = (fun (e : MidiEvent) => e.id) := by
    funext e
    exact stripEotTick_id e
  rw [he] at h2
  exact h2

theorem updateEventRaw_map_id {t : Track} {i : Int} {p : EventPatch}
    (hp : p.id = none ∨ p.id = some i) :
    (updateEventRaw t i p).1.events.map (fun e => e.id) =
      t.events.map (fun e => e.id) := by
  cases hr : updateEventRaw t i p with
  | mk t1 ro =>
    dsimp only
    cases ro with
    | none => rw [updateEventRaw_none_fst hr]
    | some ev =>
      obtain ⟨x, hf, hev, _, ht1⟩ := updateEventRaw_some_spec hr
      have hxid : x.id = i := by
        have h2 := hf
        unfold getEventById at h2
        simpa using List.find?_some h2
      have hevid : ev.id = i := by
        rcases hp with h | h
        · rw [hev, applyPatch_id_of_none _ _ h, hxid]
        · rw [hev]
          simp [applyPatch, h]
      rw [ht1]
      exact setFirstById_map_id t.events i ev hevid

/-- The raw merge performed by `updateEndOfTrack` (patch `{ tick := m }` on an
`endOfTrack` event) leaves the stripped event list unchanged. -/
theorem updateEventRaw_eot_strip {t : Track} {e : MidiEvent}
    (hnd : IdsNodup t.events) (heMem : e ∈ t.events)
    (heEot : isEndOfTrackB e = true) (m : Option Int) :
    ((updateEventRaw t e.id { tick := m }).1.events.map stripEotTick) =
      t.events.map stripEotTick := by
  cases hr : updateEventRaw t e.id { tick := m } with
  | mk t1 ro =>
    dsimp only
    cases ro with
    | none => rw [updateEventRaw_none_fst hr]
    | some ev2 =>
      obtain ⟨x, hf, hev2, _, ht12⟩ := updateEventRaw_some_spec hr
      have hxe : x = e := by
        have hfe : t.events.find? (fun q => q.id == e.id) = some e :=
          find?_by_id_unique t.events hnd e heMem e.id rfl
        have h3 : t.events.find? (fun q => q.id == e.id) = some x := by
          have h2 := hf
          unfold getEventById at h2
          exact h2
        exact Option.some.inj (h3.symm.trans hfe)
      subst hxe
      have hstrip2 : stripEotTick ev2 = stripEotTick x := by
        rw [hev2, applyPatch_tick_only]
        exact stripEotTick_tick_patch heEot _
      rw [ht12]
      have h2 := hf
      unfold getEventById at h2
      exact setFirstById_eq_of_find? t.events x.id x ev2 h2 hstrip2

theorem updateEventF_strip : ∀ (n : Nat) {t : Track} {i : Int}
    {p : EventPatch} {t' : Track} {r : Option MidiEvent},
    IdsNodup t.events → (p.id = none ∨ p.id = some i) →
    updateEventF n t i p = some (t', r) →
    (t'.events.map stripEotTick).Perm
      ((updateEventRaw t i p).1.events.map stripEotTick) := by
  intro n
  induction n with
  | zero =>
    intro t i p t' r _ _ h
    simp [updateEventF] at h
  | succ n ih =>
    intro t i p t' r hnd hp h
    rw [updateEventF_succ] at h
    cases hr : updateEventRaw t i p with
    | mk t1 ro =>
      rw [hr] at h
      cases ro with
      | none =>
        simp at h
        rw [← h.1, updateEventRaw_none_fst hr]
      | some ev =>
        obtain ⟨t2, hu, h2⟩ := Option.map_eq_some'.mp h
        have ht' : t' = sortByTick t2 := (congrArg Prod.fst h2).symm
        -- ids of t1 are those of t
        have hids1 : t1.events.map (fun e => e.id) =
            t.events.map (fun e => e.id) := by
          have := updateEventRaw_map_id (t := t) hp
          rw [hr] at this
          exact this
        have hnd1 : IdsNodup t1.events := by
          unfold IdsNodup
          rw [hids1]
          exact hnd
        -- the inner updateEndOfTrack step only retouches endOfTrack ticks
        have hinner : (t2.events.map stripEotTick).Perm
            (t1.events.map stripEotTick) := by
          unfold updateEndOfTrackF at hu
          cases hl : (t1.events.filter isEndOfTrackB).getLast? with
          | none =>
            rw [hl] at hu
            simp at hu
            rw [hu]
          | some e =>
            rw [hl] at hu
            obtain ⟨⟨ta, ra⟩, hu2, hmap⟩ := Option.map_eq_some'.mp hu
            have hmem : e ∈ t1.events.filter isEndOfTrackB :=
              List.mem_of_mem_getLast? hl
            have heMem : e ∈ t1.events := (List.mem_filter.mp hmem).1
            have heEot : isEndOfTrackB e = true := (List.mem_filter.mp hmem).2
            have hstep := ih hnd1 (Or.inl rfl) hu2
            have hraw := updateEventRaw_eot_strip hnd1 heMem heEot
              (maxEnd t1.events)
            rw [← hmap]
            exact hraw ▸ hstep
        have hsort : ((sortByTick t2).events.map stripEotTick).Perm
            (t2.events.map stripEotTick) := (sortByTick_perm t2).map _
        rw [ht']
        exact hsort.trans hinner

theorem updateEndOfTrackF_strip {n : Nat} {t t2 : Track}
    (hnd : IdsNodup t.events) (h : updateEndOfTrackF n t = some t2) :
    (t2.events.map stripEotTick).Perm (t.events.map stripEotTick) := by
  unfold updateEndOfTrackF at h
  cases hl : (t.events.filter isEndOfTrackB).getLast? with
  | none =>
    rw [hl] at h
    simp at h
    rw [h]
  | some e =>
    rw [hl] at h
    obtain ⟨⟨ta, ra⟩, hu2, hmap⟩ := Option.map_eq_some'.mp h
    have hmem : e ∈ t.events.filter isEndOfTrackB := List.mem_of_mem_getLast? hl
    have heMem : e ∈ t.events := (List.mem_filter.mp hmem).1
    have heEot : isEndOfTrackB e = true := (List.mem_filter.mp hmem).2
    have hstep := updateEventF_strip n hnd (Or.inl rfl) hu2
    have hraw := updateEventRaw_eot_strip hnd heMem heEot (maxEnd t.events)
    rw [← hmap]
    exact hraw ▸ hstep

end Track

/-! Invariant preservation through the fueled update recursion. -/

namespace Track

theorem inv0_of_perm {t t' : Track} (h : t'.events.Perm t.events)
    (hi : Inv0 t) : Inv0 t' := by
  obtain ⟨hnd, hts, hd⟩ := hi
  refine ⟨?_, ?_, ?_⟩
  · unfold IdsNodup at hnd ⊢
    exact (h.map (fun e => e.id)).nodup_iff.mpr hnd
  · intro e he
    exact hts e (h.mem_iff.mp he)
  · intro e he
    exact hd e (h.mem_iff.mp he)

theorem inv0_raw_changed {t : Track} {i : Int} {p : EventPatch} {t1 : Track}
    {ev : MidiEvent} (hInv : Inv0 t) (hgp : GoodPatch p i)
    (hr : updateEventRaw t i p = (t1, some ev)) : Inv0 t1 := by
  obtain ⟨hnd, hts, hd⟩ := hInv
  obtain ⟨x, hf, hev, _, ht1⟩ := updateEventRaw_some_spec hr
  have hxm : x ∈ t.events := by
    have h2 := hf
    unfold getEventById at h2
    exact List.mem_of_find?_eq_some h2
  have hids : t1.events.map (fun e => e.id) = t.events.map (fun e => e.id) := by
    have h3 := updateEventRaw_map_id (t := t) (p := p) hgp.1
    rw [hr] at h3
    exact h3
  refine ⟨?_, ?_, ?_⟩
  · unfold IdsNodup
    rw [hids]
    exact hnd
  · intro y hy
    rw [ht1] at hy
    rcases mem_setFirstById hy with h4 | h4
    · subst h4
      rw [hev]
      show ((applyPatch x p).tick).isSome = true
      cases hpt : p.tick with
      | none =>
        have : (applyPatch x p).tick = x.tick := by simp [applyPatch, hpt]
        rw [this]
        exact hts x hxm
      | some v =>
        have : (applyPatch x p).tick = some v := by simp [applyPatch, hpt]
        rw [this]
        rfl
    · exact hts y h4
  · intro y hy
    rw [ht1] at hy
    rcases mem_setFirstById hy with h4 | h4
    · subst h4
      rw [hev]
      show 0 ≤ ((applyPatch x p).duration).getD 0
      cases hpd : p.duration with
      | none =>
        have : (applyPatch x p).duration = x.duration := by simp [applyPatch, hpd]
        rw [this]
        exact hd x hxm
      | some d =>
        have h5 : (applyPatch x p).duration = some d := by simp [applyPatch, hpd]
        rw [h5]
        have := hgp.2
        rw [hpd] at this
        exact this
    · exact hd y h4

theorem eotFixL_sort (l : List MidiEvent) (hts : TicksSome l) (hd : DursNN l)
    (hfix : EotFixL l) : EotFixL (l.insertionSort tickLe) := by
  intro z hz
  have hperm : (l.insertionSort tickLe).Perm l := List.perm_insertionSort tickLe l
  have hfperm : ((l.insertionSort tickLe).filter isEndOfTrackB).Perm
      (l.filter isEndOfTrackB) := hperm.filter _
  have hzmem : z ∈ (l.insertionSort tickLe).filter isEndOfTrackB :=
    List.mem_of_mem_getLast? hz
  obtain ⟨e, he⟩ : ∃ e, (l.filter isEndOfTrackB).getLast? = some e := by
    cases hgl : (l.filter isEndOfTrackB).getLast? with
    | none =>
      exfalso
      have h0 : l.filter isEndOfTrackB = [] := List.getLast?_eq_none_iff.mp hgl
      rw [h0] at hfperm
      have := hfperm.eq_nil
      rw [this] at hzmem
      exact List.not_mem_nil z hzmem
    | some e => exact ⟨e, rfl⟩
  have hetick := hfix e he
  have heMem : e ∈ l := (List.mem_filter.mp (List.mem_of_mem_getLast? he)).1
  obtain ⟨M, hM⟩ : ∃ M, maxEnd l = some M := by
    cases hM : maxEnd l with
    | none =>
      exfalso
      have h0 := (maxEnd_eq_none_iff l).mp hM
      rw [h0] at heMem
      exact List.not_mem_nil e heMem
    | some M => exact ⟨M, rfl⟩
  rw [hM] at hetick
  obtain ⟨_, hub⟩ := maxEnd_spec l M hM
  have hsorted : ((l.insertionSort tickLe).filter isEndOfTrackB).Sorted tickLe :=
    List.Pairwise.filter isEndOfTrackB (List.sorted_insertionSort tickLe l)
  have hmax := sorted_getLast?_max _ hsorted z hz
  have heS : e ∈ (l.insertionSort tickLe).filter isEndOfTrackB :=
    hfperm.mem_iff.mpr (List.mem_of_mem_getLast? he)
  have h1 : M ≤ sortKey z := by
    have h2 := hmax e heS
    rw [show sortKey e = M by simp [sortKey, hetick]] at h2
    exact h2
  have hzl : z ∈ l :=
    hperm.mem_iff.mp (List.mem_filter.mp hzmem).1
  have h2 : sortKey z ≤ M := by
    have h3 : sortKey z ≤ evEnd z := le_add_of_nonneg_right (hd z hzl)
    exact le_trans h3 (hub z hzl)
  obtain ⟨k, hk⟩ := Option.isSome_iff_exists.mp (hts z hzl)
  have hkM : k = M := by
    have h4 := le_antisymm h2 h1
    rw [sortKey, hk] at h4
    simpa using h4
  rw [maxEnd_perm hperm, hM, hk, hkM]

theorem eotFix_sortByTick {t : Track} (hInv : Inv0 t) (hfx : EotFix t) :
    EotFix (sortByTick t) :=
  eotFixL_sort t.events hInv.2.1 hInv.2.2 hfx

theorem updateEndOfTrackF_inv_aux (n : Nat)
    (IH : ∀ {t : Track} {i : Int} {p : EventPatch} {t' : Track}
      {r : Option MidiEvent},
      Inv0 t → GoodPatch p i → updateEventF n t i p = some (t', r) →
      Inv0 t' ∧ (r = none → t' = t) ∧
        (r = none → ∀ e, t.getEventById i = some e → applyPatch e p = e) ∧
        (r ≠ none → t'.events.Sorted tickLe ∧ EotFix t'))
    {t t2 : Track} (hInv : Inv0 t) (h : updateEndOfTrackF n t = some t2) :
    Inv0 t2 ∧ EotFix t2 ∧ (t2 = t ∨ t2.events.Sorted tickLe) := by
  unfold updateEndOfTrackF at h
  cases hl : (t.events.filter isEndOfTrackB).getLast? with
  | none =>
    rw [hl] at h
    simp at h
    subst h
    refine ⟨hInv, ?_, Or.inl rfl⟩
    intro e he
    rw [hl] at he
    cases he
  | some e =>
    rw [hl] at h
    obtain ⟨⟨ta, ra⟩, hu, hmap⟩ := Option.map_eq_some'.mp h
    dsimp at hmap
    have hmemF : e ∈ t.events.filter isEndOfTrackB := List.mem_of_mem_getLast? hl
    have heMem : e ∈ t.events := (List.mem_filter.mp hmemF).1
    have hgp : GoodPatch { tick := maxEnd t.events } e.id := ⟨Or.inl rfl, by simp⟩
    obtain ⟨hInv', hnone, hmerge, hsome⟩ := IH hInv hgp hu
    cases ra with
    | none =>
      have hta : ta = t := hnone rfl
      have htt2 : t = t2 := by
        rw [← hmap]
        exact hta.symm
      subst htt2
      refine ⟨hInv, ?_, Or.inl rfl⟩
      intro e' he'
      have he'e : e' = e := Option.some.inj (he'.symm.trans hl)
      rw [he'e]
      have hfe : t.getEventById e.id = some e := by
        unfold getEventById
        exact find?_by_id_unique t.events hInv.1 e heMem e.id rfl
      have hmg := hmerge rfl e hfe
      have htick := congrArg MidiEvent.tick hmg
      rw [applyPatch_tick_only] at htick
      obtain ⟨M, hM⟩ : ∃ M, maxEnd t.events = some M := by
        cases hM : maxEnd t.events with
        | none =>
          exfalso
          have h0 := (maxEnd_eq_none_iff t.events).mp hM
          rw [h0] at heMem
          exact List.not_mem_nil e heMem
        | some M => exact ⟨M, rfl⟩
      rw [hM] at htick
      rw [hM, ← htick]
      rfl
    | some ev =>
      obtain ⟨hs, hfx⟩ := hsome (by simp)
      subst hmap
      exact ⟨hInv', hfx, Or.inr hs⟩

theorem updateEventF_inv : ∀ (n : Nat) {t : Track} {i : Int} {p : EventPatch}
    {t' : Track} {r : Option MidiEvent},
    Inv0 t → GoodPatch p i → updateEventF n t i p = some (t', r) →
    Inv0 t' ∧ (r = none → t' = t) ∧
      (r = none → ∀ e, t.getEventById i = some e → applyPatch e p = e) ∧
      (r ≠ none → t'.events.Sorted tickLe ∧ EotFix t') := by
  intro n
  induction n with
  | zero =>
    intro t i p t' r _ _ h
    simp [updateEventF] at h
  | succ n ih =>
    intro t i p t' r hInv hgp h
    rw [updateEventF_succ] at h
    cases hr : updateEventRaw t i p with
    | mk t1 ro =>
      rw [hr] at h
      cases ro with
      | none =>
        simp at h
        obtain ⟨h1, h2⟩ := h
        subst h1
        refine ⟨hInv, fun _ => rfl, ?_, ?_⟩
        · intro _ e hf
          exact updateEventRaw_none_merge hr e hf
        · intro hc
          exact absurd h2.symm hc
      | some ev =>
        obtain ⟨t2, hu, h2⟩ := Option.map_eq_some'.mp h
        have ht' : t' = sortByTick t2 := (congrArg Prod.fst h2).symm
        have hrr : r = some ev := (congrArg Prod.snd h2).symm
        have hInv1 : Inv0 t1 := inv0_raw_changed hInv hgp hr
        obtain ⟨hInv2, hfx2, _⟩ := updateEndOfTrackF_inv_aux n ih hInv1 hu
        refine ⟨?_, ?_, ?_, ?_⟩
        · rw [ht']
          exact inv0_of_perm (sortByTick_perm t2) hInv2
        · intro hrn
          rw [hrr] at hrn
          cases hrn
        · intro hrn
          rw [hrr] at hrn
          cases hrn
        · intro _
          constructor
          · rw [ht']
            exact sortByTick_sorted t2
          · rw [ht']
            exact eotFix_sortByTick hInv2 hfx2

theorem updateEndOfTrackF_inv {n : Nat} {t t2 : Track} (hInv : Inv0 t)
    (h : updateEndOfTrackF n t = some t2) :
    Inv0 t2 ∧ EotFix t2 ∧ (t2 = t ∨ t2.events.Sorted tickLe) :=
  updateEndOfTrackF_inv_aux n (updateEventF_inv n) hInv h

end Track

/-! Sortedness is an invariant of every public mutation (claim C1 core). -/

namespace Track

theorem didAddEventF_sorted {n : Nat} {t t' : Track}
    (h : didAddEventF n t = some t') : t'.events.Sorted tickLe := by
  unfold didAddEventF at h
  obtain ⟨t2, _, h2⟩ := Option.map_eq_some'.mp h
  rw [← h2]
  exact sortByTick_sorted t2

theorem sorted_filter {l : List MidiEvent} (q : MidiEvent → Bool)
    (h : l.Sorted tickLe) : (l.filter q).Sorted tickLe :=
  List.Pairwise.filter q h

theorem removeEventF_sorted {n : Nat} {t t' : Track} (hs : t.events.Sorted tickLe)
    (h : removeEventF n t i = some t') : t'.events.Sorted tickLe := by
  unfold removeEventF at h
  rcases updateEndOfTrackF_sorted_cases h with heq | hsort
  · rw [heq]
    cases t.getEventById i with
    | none => exact hs
    | some obj => exact sorted_filter _ hs
  · exact hsort

theorem removeEventsF_sorted {n : Nat} {t t' : Track} {ids : List Int}
    (hs : t.events.Sorted tickLe) (h : removeEventsF n t ids = some t') :
    t'.events.Sorted tickLe := by
  unfold removeEventsF at h
  rcases updateEndOfTrackF_sorted_cases h with heq | hsort
  · rw [heq]
    exact sorted_filter _ hs
  · exact hsort

theorem changeChannel_sorted {t : Track} {c : Int} (hs : t.events.Sorted tickLe) :
    (changeChannel t c).events.Sorted tickLe := by
  unfold changeChannel
  refine List.Pairwise.map _ ?_ hs
  intro a b hab
  show tickLe _ _
  unfold tickLe sortKey at hab ⊢
  by_cases ha : a.etype = some "channel" <;>
    by_cases hb : b.etype = some "channel" <;>
      simp [ha, hb] <;> exact hab

theorem foldlM_update_sorted (ms : List MidiEvent) (n : Nat) (ne : MidiEvent) :
    ∀ (t0 : Track) (tf : Track), t0.events.Sorted tickLe →
    ms.foldlM (fun acc (e : MidiEvent) =>
      (updateEventF n acc e.id (patchOfEvent ne e.id)).map (·.1)) t0 = some tf →
    tf.events.Sorted tickLe := by
  induction ms with
  | nil =>
    intro t0 tf hs h
    exact Option.some.inj h ▸ hs
  | cons m ms ih =>
    intro t0 tf hs h
    rw [List.foldlM_cons] at h
    cases hstep : (updateEventF n t0 m.id (patchOfEvent ne m.id)).map (·.1) with
    | none => rw [hstep] at h; simp at h
    | some t1 =>
      rw [hstep] at h
      obtain ⟨⟨ta, ra⟩, hu, hmap⟩ := Option.map_eq_some'.mp hstep
      have ht1 : t1 = ta := hmap.symm
      subst ht1
      rcases updateEventF_sorted_cases hu with ⟨heq, _⟩ | hsort
      · exact ih t0 tf hs (by rw [heq] at h; exact h)
      · exact ih t1 tf hsort h

theorem createOrUpdateF_sorted {n : Nat} {t : Track} {ne : MidiEvent}
    {t' : Track} {r : MidiEvent} (hs : t.events.Sorted tickLe)
    (h : createOrUpdateF n t ne = some (t', r)) : t'.events.Sorted tickLe := by
  unfold createOrUpdateF at h
  split at h
  · unfold addEventF at h
    obtain ⟨t2, h2, h3⟩ := Option.map_eq_some'.mp h
    have : t' = t2 := (congrArg Prod.fst h3).symm
    rw [this]
    exact didAddEventF_sorted h2
  · next m ms hfl =>
    obtain ⟨tfin, hfold, h3⟩ := Option.map_eq_some'.mp h
    have : t' = tfin := (congrArg Prod.fst h3).symm
    rw [this]
    exact foldlM_update_sorted (m :: ms) n ne t tfin hs hfold

theorem sorted_of_reachable : ∀ {t : Track}, Reachable t →
    t.events.Sorted tickLe := by
  intro t h
  induction h with
  | empty => exact List.sorted_nil
  | addEvent n t e t' r _ h _ =>
    unfold addEventF at h
    obtain ⟨t2, h2, h3⟩ := Option.map_eq_some'.mp h
    have : t' = t2 := (congrArg Prod.fst h3).symm
    rw [this]
    exact didAddEventF_sorted h2
  | addEvents n t es t' rs _ h _ =>
    unfold addEventsF at h
    obtain ⟨t2, h2, h3⟩ := Option.map_eq_some'.mp h
    have : t' = t2 := (congrArg Prod.fst h3).symm
    rw [this]
    exact didAddEventF_sorted h2
  | updateEvent n t i p t' r _ h ih =>
    rcases updateEventF_sorted_cases h with ⟨heq, _⟩ | hsort
    · rw [heq]; exact ih
    · exact hsort
  | updateEvents n t ps t' _ h _ =>
    unfold updateEventsF at h
    obtain ⟨t2, _, h3⟩ := Option.map_eq_some'.mp h
    rw [← h3]
    exact sortByTick_sorted t2
  | removeEvent n t i t' _ h ih => exact removeEventF_sorted ih h
  | removeEvents n t ids t' _ h ih => exact removeEventsF_sorted ih h
  | createOrUpdate n t ne t' r _ h ih => exact createOrUpdateF_sorted ih h
  | changeChannel t c _ ih => exact changeChannel_sorted ih
  | setName n t s t' _ h ih =>
    rcases updateLastF_sorted_cases h with heq | hsort
    · rw [heq]; exact ih
    · exact hsort
  | setVolume n t v t' _ h ih =>
    rcases updateLastF_sorted_cases h with heq | hsort
    · rw [heq]; exact ih
    · exact hsort
  | setPan n t v t' _ h ih =>
    rcases updateLastF_sorted_cases h with heq | hsort
    · rw [heq]; exact ih
    · exact hsort
  | setProgramNumber n t v t' _ h ih =>
    rcases updateLastF_sorted_cases h with heq | hsort
    · rw [heq]; exact ih
    · exact hsort
  | setTempo n t bpm t' _ h ih =>
    rcases updateLastF_sorted_cases h with heq | hsort
    · rw [heq]; exact ih
    · exact hsort
  | setEndOfTrack n t tk t' _ h ih =>
    rcases updateLastF_sorted_cases h with heq | hsort
    · rw [heq]; exact ih
    · exact hsort

end Track

/-! The `InvNN` bundle is preserved by every public mutation on the
specification's input domain. -/

namespace Track

theorem idBound_of_perm_frame {t t' : Track}
    (h : (t'.events.map (fun e => e.id)).Perm (t.events.map (fun e => e.id)))
    (hl : t'.lastEventId = t.lastEventId) (hb : IdBound t) : IdBound t' := by
  intro y hy
  have h2 : y.id ∈ t.events.map (fun e => e.id) :=
    h.mem_iff.mp (List.mem_map_of_mem _ hy)
  obtain ⟨x, hx, hxy⟩ := List.mem_map.mp h2
  rw [hl, ← hxy]
  exact hb x hx

theorem invNN_updateEventF {n : Nat} {t : Track} {i : Int} {p : EventPatch}
    {t' : Track} {r : Option MidiEvent} (ht : InvNN t) (hgp : GoodPatch p i)
    (h : updateEventF n t i p = some (t', r)) : InvNN t' := by
  obtain ⟨hInv, hb, hfx⟩ := ht
  obtain ⟨hInv', hnone, _, hsome⟩ := updateEventF_inv n hInv hgp h
  have h1 := map_id_of_map_strip (updateEventF_strip n hInv.1 hgp.1 h)
  rw [updateEventRaw_map_id hgp.1] at h1
  have hframe := updateEventF_frame n h
  refine ⟨hInv', idBound_of_perm_frame h1 hframe.1 hb, ?_⟩
  cases r with
  | none => rw [hnone rfl]; exact hfx
  | some ev => exact (hsome (by simp)).2

theorem invNN_updateEndOfTrackF {n : Nat} {t t2 : Track} (hInv : Inv0 t)
    (hb : IdBound t) (h : updateEndOfTrackF n t = some t2) : InvNN t2 := by
  obtain ⟨hInv', hfx', _⟩ := updateEndOfTrackF_inv hInv h
  have h1 := map_id_of_map_strip (updateEndOfTrackF_strip hInv.1 h)
  have hframe := updateEndOfTrackF_frame h
  exact ⟨hInv', idBound_of_perm_frame h1 hframe.1 hb, hfx'⟩

theorem invNN_sortByTick {t : Track} (ht : InvNN t) : InvNN (sortByTick t) := by
  obtain ⟨hInv, hb, hfx⟩ := ht
  refine ⟨inv0_of_perm (sortByTick_perm t) hInv, ?_, eotFix_sortByTick hInv hfx⟩
  exact idBound_of_perm_frame ((sortByTick_perm t).map _) rfl hb

theorem addEventRaw_spec (t : Track) (e : MidiEvent) :
    (addEventRaw t e).1.events = t.events ++ [(addEventRaw t e).2] ∧
    (addEventRaw t e).1.lastEventId = t.lastEventId + 1 ∧
    (addEventRaw t e).1.channel = t.channel ∧
    (addEventRaw t e).2.id = t.lastEventId ∧
    ((addEventRaw t e).2.tick).isSome = true ∧
    (addEventRaw t e).2.duration = e.duration := by
  have h5 : ((addEventRaw t e).2.tick).isSome = true := by
    unfold addEventRaw
    dsimp only
    by_cases h1 : e.tick = none
    · rw [if_pos h1]
      split <;> rfl
    · rw [if_neg h1]
      split
      · exact Option.ne_none_iff_isSome.mp h1
      · exact Option.ne_none_iff_isSome.mp h1
  refine ⟨?_, ?_, ?_, ?_, h5, ?_⟩
  all_goals unfold addEventRaw
  all_goals dsimp only
  all_goals by_cases h1 : e.tick = none
  all_goals first
  | (rw [if_pos h1]; split <;> rfl)
  | (rw [if_neg h1]; split <;> rfl)

theorem inv0_idBound_addEventRaw {t : Track} {e : MidiEvent} (hInv : Inv0 t)
    (hb : IdBound t) (hd : 0 ≤ (e.duration).getD 0) :
    Inv0 (addEventRaw t e).1 ∧ IdBound (addEventRaw t e).1 := by
  obtain ⟨hev, hlast, _, hid, htick, hdur⟩ := addEventRaw_spec t e
  obtain ⟨hnd, hts, hdu⟩ := hInv
  constructor
  · refine ⟨?_, ?_, ?_⟩
    · unfold IdsNodup
      rw [hev, List.map_append, List.nodup_append]
      refine ⟨hnd, List.nodup_singleton _, ?_⟩
      intro a ha hb2
      simp only [List.map_cons, List.map_nil, List.mem_singleton] at hb2
      rw [hb2, hid] at ha
      obtain ⟨x, hx, hxy⟩ := List.mem_map.mp ha
      exact absurd hxy (ne_of_lt (hb x hx))
    · intro y hy
      rw [hev] at hy
      rcases List.mem_append.mp hy with h2 | h2
      · exact hts y h2
      · rw [List.mem_singleton.mp h2]
        exact htick
    · intro y hy
      rw [hev] at hy
      rcases List.mem_append.mp hy with h2 | h2
      · exact hdu y h2
      · rw [List.mem_singleton.mp h2, hdur]
        exact hd
  · intro y hy
    rw [hev] at hy
    rcases List.mem_append.mp hy with h2 | h2
    · rw [hlast]
      exact lt_trans (hb y h2) (lt_add_one _)
    · rw [List.mem_singleton.mp h2, hlast, hid]
      exact lt_add_one _

theorem invNN_didAddEventF {n : Nat} {t t' : Track} (hInv : Inv0 t)
    (hb : IdBound t) (h : didAddEventF n t = some t') : InvNN t' := by
  unfold didAddEventF at h
  obtain ⟨t2, h2, h3⟩ := Option.map_eq_some'.mp h
  rw [← h3]
  exact invNN_sortByTick (invNN_updateEndOfTrackF hInv hb h2)

theorem invNN_addEventF {n : Nat} {t : Track} {e : MidiEvent} {t' : Track}
    {r : MidiEvent} (ht : InvNN t) (hd : 0 ≤ (e.duration).getD 0)
    (h : addEventF n t e = some (t', r)) : InvNN t' := by
  unfold addEventF at h
  obtain ⟨t2, h2, h3⟩ := Option.map_eq_some'.mp h
  have ht' : t' = t2 := (congrArg Prod.fst h3).symm
  rw [ht']
  obtain ⟨hInv1, hb1⟩ := inv0_idBound_addEventRaw ht.1 ht.2.1 hd
  exact invNN_didAddEventF hInv1 hb1 h2

theorem inv0_idBound_addEventRaw_fold {es : List MidiEvent} :
    ∀ {acc : Track × List MidiEvent},
    Inv0 acc.1 → IdBound acc.1 → (∀ e ∈ es, 0 ≤ (e.duration).getD 0) →
    Inv0 (es.foldl
      (fun (acc : Track × List MidiEvent) e =>
        let te := addEventRaw acc.1 e
        (te.1, acc.2 ++ [te.2])) acc).1 ∧
    IdBound (es.foldl
      (fun (acc : Track × List MidiEvent) e =>
        let te := addEventRaw acc.1 e
        (te.1, acc.2 ++ [te.2])) acc).1 := by
  induction es with
  | nil => intro acc h1 h2 _; exact ⟨h1, h2⟩
  | cons e es ih =>
    intro acc h1 h2 hds
    rw [List.foldl_cons]
    obtain ⟨h1', h2'⟩ := inv0_idBound_addEventRaw h1 h2 (hds e (by simp))
    exact ih h1' h2' (fun x hx => hds x (List.mem_cons_of_mem _ hx))

theorem invNN_addEventsF {n : Nat} {t : Track} {es : List MidiEvent}
    {t' : Track} {rs : List MidiEvent} (ht : InvNN t)
    (hds : ∀ e ∈ es, 0 ≤ (e.duration).getD 0)
    (h : addEventsF n t es = some (t', rs)) : InvNN t' := by
  unfold addEventsF at h
  obtain ⟨t2, h2, h3⟩ := Option.map_eq_some'.mp h
  have ht' : t' = t2 := (congrArg Prod.fst h3).symm
  rw [ht']
  obtain ⟨hInv1, hb1⟩ := @inv0_idBound_addEventRaw_fold es (t, [])
    ht.1 ht.2.1 hds
  exact invNN_didAddEventF hInv1 hb1 h2

end Track

/-! Remaining operations: batch update, removal, merge-or-insert, channel
propagation, derived-parameter writes. -/

namespace Track

theorem inv0_idBound_rawStep {acc : Track} {p : EventPatch}
    (h1 : Inv0 acc) (h2 : IdBound acc) (hd : 0 ≤ (p.duration).getD 0) :
    Inv0 (match p.id with
          | some i => (updateEventRaw acc i p).1
          | none => acc) ∧
    IdBound (match p.id with
             | some i => (updateEventRaw acc i p).1
             | none => acc) := by
  cases hpi : p.id with
  | none => exact ⟨h1, h2⟩
  | some i =>
    have hgp : GoodPatch p i := ⟨Or.inr hpi, hd⟩
    cases hro : updateEventRaw acc i p with
    | mk t1 ro =>
      dsimp only
      rw [hro]
      have hids : t1.events.map (fun e => e.id) =
          acc.events.map (fun e => e.id) := by
        have h3 := updateEventRaw_map_id (t := acc) (p := p) hgp.1
        rw [hro] at h3
        exact h3
      have hframe : t1.lastEventId = acc.lastEventId := by
        have h3 := (updateEventRaw_fst_frame acc i p).1
        rw [hro] at h3
        exact h3
      constructor
      · cases ro with
        | none => rw [updateEventRaw_none_fst hro]; exact h1
        | some ev => exact inv0_raw_changed h1 hgp hro
      · exact idBound_of_perm_frame (by rw [hids]) hframe h2

theorem inv0_idBound_rawFold {ps : List EventPatch} :
    ∀ {acc : Track}, Inv0 acc → IdBound acc →
    (∀ p ∈ ps, 0 ≤ (p.duration).getD 0) →
    Inv0 (ps.foldl
      (fun acc p =>
        match p.id with
        | some i => (updateEventRaw acc i p).1
        | none => acc) acc) ∧
    IdBound (ps.foldl
      (fun acc p =>
        match p.id with
        | some i => (updateEventRaw acc i p).1
        | none => acc) acc) := by
  induction ps with
  | nil => intro acc h1 h2 _; exact ⟨h1, h2⟩
  | cons p ps ih =>
    intro acc h1 h2 hds
    rw [List.foldl_cons]
    obtain ⟨h1', h2'⟩ := inv0_idBound_rawStep h1 h2 (hds p (by simp))
    exact ih h1' h2' (fun x hx => hds x (List.mem_cons_of_mem _ hx))

theorem invNN_updateEventsF {n : Nat} {t : Track} {ps : List EventPatch}
    {t' : Track} (ht : InvNN t) (hds : ∀ p ∈ ps, 0 ≤ (p.duration).getD 0)
    (h : updateEventsF n t ps = some t') : InvNN t' := by
  unfold updateEventsF at h
  obtain ⟨t2, h2, h3⟩ := Option.map_eq_some'.mp h
  rw [← h3]
  obtain ⟨h1', hb'⟩ := inv0_idBound_rawFold ht.1 ht.2.1 hds
  exact invNN_sortByTick (invNN_updateEndOfTrackF h1' hb' h2)

theorem inv0_idBound_filter {t : Track} (q : MidiEvent → Bool)
    (h1 : Inv0 t) (h2 : IdBound t) :
    Inv0 { t with events := t.events.filter q } ∧
      IdBound { t with events := t.events.filter q } := by
  obtain ⟨hnd, hts, hd⟩ := h1
  refine ⟨⟨?_, ?_, ?_⟩, ?_⟩
  · unfold IdsNodup at hnd ⊢
    exact List.Nodup.sublist ((t.events.filter_sublist).map _) hnd
  · intro y hy
    exact hts y (List.mem_filter.mp hy).1
  · intro y hy
    exact hd y (List.mem_filter.mp hy).1
  · intro y hy
    exact h2 y (List.mem_filter.mp hy).1

theorem invNN_removeEventF {n : Nat} {t : Track} {i : Int} {t' : Track}
    (ht : InvNN t) (h : removeEventF n t i = some t') : InvNN t' := by
  unfold removeEventF at h
  cases hf : t.getEventById i with
  | none =>
    rw [hf] at h
    exact invNN_updateEndOfTrackF ht.1 ht.2.1 h
  | some obj =>
    rw [hf] at h
    obtain ⟨h1', hb'⟩ := inv0_idBound_filter (fun x => x != obj) ht.1 ht.2.1
    exact invNN_updateEndOfTrackF h1' hb' h

theorem invNN_removeEventsF {n : Nat} {t : Track} {ids : List Int} {t' : Track}
    (ht : InvNN t) (h : removeEventsF n t ids = some t') : InvNN t' := by
  unfold removeEventsF at h
  obtain ⟨h1', hb'⟩ := inv0_idBound_filter
    (fun x => !(ids.filterMap t.getEventById).contains x) ht.1 ht.2.1
  exact invNN_updateEndOfTrackF h1' hb' h

theorem invNN_foldlM_update (ms : List MidiEvent) (n : Nat) (ne : MidiEvent)
    (hd : 0 ≤ (ne.duration).getD 0) :
    ∀ (t0 tf : Track), InvNN t0 →
    ms.foldlM (fun acc (e : MidiEvent) =>
      (updateEventF n acc e.id (patchOfEvent ne e.id)).map (·.1)) t0 = some tf →
    InvNN tf := by
  induction ms with
  | nil =>
    intro t0 tf h0 h
    exact Option.some.inj h ▸ h0
  | cons m ms ih =>
    intro t0 tf h0 h
    rw [List.foldlM_cons] at h
    cases hstep : (updateEventF n t0 m.id (patchOfEvent ne m.id)).map (·.1) with
    | none => rw [hstep] at h; simp at h
    | some t1 =>
      rw [hstep] at h
      obtain ⟨⟨ta, ra⟩, hu, hmap⟩ := Option.map_eq_some'.mp hstep
      have hgp : GoodPatch (patchOfEvent ne m.id) m.id := by
        refine ⟨Or.inr rfl, ?_⟩
        show 0 ≤ ((patchOfEvent ne m.id).duration).getD 0
        exact hd
      have h1 : InvNN ta := invNN_updateEventF h0 hgp hu
      have ht1 : t1 = ta := hmap.symm
      subst ht1
      exact ih t1 tf h1 h

theorem invNN_createOrUpdateF {n : Nat} {t : Track} {ne : MidiEvent}
    {t' : Track} {r : MidiEvent} (ht : InvNN t)
    (hd : 0 ≤ (ne.duration).getD 0)
    (h : createOrUpdateF n t ne = some (t', r)) : InvNN t' := by
  unfold createOrUpdateF at h
  split at h
  · exact invNN_addEventF ht hd h
  · next m ms hfl =>
    obtain ⟨tfin, hfold, h3⟩ := Option.map_eq_some'.mp h
    have : t' = tfin := (congrArg Prod.fst h3).symm
    rw [this]
    exact invNN_foldlM_update (m :: ms) n ne hd t tfin ht hfold

theorem chanStamp_fields (c : Int) (e : MidiEvent) :
    (if e.etype = some "channel" then { e with channel := some c } else e).id
        = e.id ∧
    (if e.etype = some "channel" then { e with channel := some c } else e).tick
        = e.tick ∧
    (if e.etype = some "channel" then { e with channel := some c } else e).subtype
        = e.subtype ∧
    (if e.etype = some "channel" then { e with channel := some c } else e).duration
        = e.duration := by
  split <;> exact ⟨rfl, rfl, rfl, rfl⟩

theorem maxEnd_map_evEnd {l : List MidiEvent} {f : MidiEvent → MidiEvent}
    (hf : ∀ e, evEnd (f e) = evEnd e) : maxEnd (l.map f) = maxEnd l := by
  induction l with
  | nil => rfl
  | cons e es ih =>
    simp only [List.map_cons, maxEnd, ih, hf]

theorem invNN_changeChannel {t : Track} (c : Int) (ht : InvNN t) :
    InvNN (changeChannel t c) := by
  obtain ⟨⟨hnd, hts, hd⟩, hb, hfx⟩ := ht
  have hstamp := fun e => chanStamp_fields c e
  have hevEnd : ∀ e, evEnd
      (if e.etype = some "channel" then { e with channel := some c } else e) =
      evEnd e := by
    intro e
    unfold evEnd
    rw [(hstamp e).2.1, (hstamp e).2.2.2]
  have hmapid : (changeChannel t c).events.map (fun e => e.id) =
      t.events.map (fun e => e.id) := by
    unfold changeChannel
    dsimp only
    rw [List.map_map]
    refine List.map_congr_left ?_
    intro e _
    exact (hstamp e).1
  refine ⟨⟨?_, ?_, ?_⟩, ?_, ?_⟩
  · unfold IdsNodup at hnd ⊢
    rw [hmapid]
    exact hnd
  · intro y hy
    unfold changeChannel at hy
    obtain ⟨x, hx, hxy⟩ := List.mem_map.mp hy
    rw [← hxy, (hstamp x).2.1]
    exact hts x hx
  · intro y hy
    unfold changeChannel at hy
    obtain ⟨x, hx, hxy⟩ := List.mem_map.mp hy
    rw [← hxy, (hstamp x).2.2.2]
    exact hd x hx
  · intro y hy
    unfold changeChannel at hy
    obtain ⟨x, hx, hxy⟩ := List.mem_map.mp hy
    rw [← hxy, (hstamp x).1]
    exact hb x hx
  · intro z hz
    unfold changeChannel at hz ⊢
    dsimp only at hz ⊢
    rw [List.filter_map] at hz
    have hpred : (isEndOfTrackB ∘ fun e =>
        if e.etype = some "channel" then { e with channel := some c } else e) =
        isEndOfTrackB := by
      funext e
      show isEndOfTrackB _ = isEndOfTrackB e
      unfold isEndOfTrackB
      rw [(hstamp e).2.2.1]
    rw [hpred, List.getLast?_map] at hz
    obtain ⟨z0, hz0, hz0z⟩ := Option.map_eq_some'.mp hz
    rw [← hz0z, (hstamp z0).2.1, maxEnd_map_evEnd hevEnd]
    exact hfx z0 hz0

theorem invNN_updateLastF {n : Nat} {t : Track} {arr : List MidiEvent}
    {p : EventPatch} {t' : Track} (ht : InvNN t) (hpi : p.id = none)
    (hpd : p.duration = none) (h : updateLastF n t arr p = some t') :
    InvNN t' := by
  unfold updateLastF at h
  cases hl : arr.getLast? with
  | none =>
    rw [hl] at h
    simp at h
    rw [← h]
    exact ht
  | some e =>
    rw [hl] at h
    obtain ⟨⟨ta, ra⟩, hu, hmap⟩ := Option.map_eq_some'.mp h
    have hgp : GoodPatch p e.id := ⟨Or.inl hpi, by rw [hpd]; exact le_refl 0⟩
    rw [← hmap]
    exact invNN_updateEventF ht hgp hu

theorem invNN_of_reachableNN : ∀ {t : Track}, ReachableNN t → InvNN t := by
  intro t h
  induction h with
  | empty =>
    refine ⟨⟨?_, ?_, ?_⟩, ?_, ?_⟩
    · exact List.nodup_nil
    · intro e he; cases he
    · intro e he; cases he
    · intro e he; cases he
    · intro e he; cases he
  | addEvent n t e t' r _ hd h ih => exact invNN_addEventF ih hd h
  | addEvents n t es t' rs _ hds h ih => exact invNN_addEventsF ih hds h
  | updateEvent n t i p t' r _ hgp h ih => exact invNN_updateEventF ih hgp h
  | updateEvents n t ps t' _ hds h ih => exact invNN_updateEventsF ih hds h
  | removeEvent n t i t' _ h ih => exact invNN_removeEventF ih h
  | removeEvents n t ids t' _ h ih => exact invNN_removeEventsF ih h
  | createOrUpdate n t ne t' r _ hd h ih => exact invNN_createOrUpdateF ih hd h
  | changeChannel t c _ ih => exact invNN_changeChannel c ih
  | setName n t s t' _ h ih => exact invNN_updateLastF ih rfl rfl h
  | setVolume n t v t' _ h ih => exact invNN_updateLastF ih rfl rfl h
  | setPan n t v t' _ h ih => exact invNN_updateLastF ih rfl rfl h
  | setProgramNumber n t v t' _ h ih => exact invNN_updateLastF ih rfl rfl h
  | setTempo n t bpm t' _ h ih => exact invNN_updateLastF ih rfl rfl h
  | setEndOfTrack n t tk t' _ h ih => exact invNN_updateLastF ih rfl rfl h

end Track

/-! Id allocation (claim C3): inserted ids are fresh, strictly increasing,
and bounded by the allocator counter. -/

namespace Track

theorem didAddEventF_frame {n : Nat} {t t' : Track}
    (h : didAddEventF n t = some t') :
    t'.lastEventId = t.lastEventId ∧ t'.channel = t.channel := by
  unfold didAddEventF at h
  obtain ⟨t2, h2, h3⟩ := Option.map_eq_some'.mp h
  have hfr := updateEndOfTrackF_frame h2
  rw [← h3]
  exact hfr

theorem addEventF_ids {n : Nat} {t : Track} {e : MidiEvent} {t' : Track}
    {r : MidiEvent} (h : addEventF n t e = some (t', r)) :
    r.id = t.lastEventId ∧ t'.lastEventId = t.lastEventId + 1 := by
  unfold addEventF at h
  obtain ⟨t2, h2, h3⟩ := Option.map_eq_some'.mp h
  have hr : r = (addEventRaw t e).2 := (congrArg Prod.snd h3).symm
  have ht' : t' = t2 := (congrArg Prod.fst h3).symm
  obtain ⟨_, hlast, _, hid, _, _⟩ := addEventRaw_spec t e
  refine ⟨by rw [hr]; exact hid, ?_⟩
  rw [ht', (didAddEventF_frame h2).1, hlast]

theorem addFold_spec : ∀ (es : List MidiEvent) (acc : Track × List MidiEvent),
    (∀ x ∈ acc.2, x.id < acc.1.lastEventId) →
    ((acc.2.map (fun x => x.id)).Sorted (· < ·)) →
    (es.foldl (fun (acc : Track × List MidiEvent) e =>
        let te := addEventRaw acc.1 e
        (te.1, acc.2 ++ [te.2])) acc).1.lastEventId
        = acc.1.lastEventId + (es.length : Int) ∧
    (∀ x ∈ (es.foldl (fun (acc : Track × List MidiEvent) e =>
        let te := addEventRaw acc.1 e
        (te.1, acc.2 ++ [te.2])) acc).2,
      x.id < (es.foldl (fun (acc : Track × List MidiEvent) e =>
        let te := addEventRaw acc.1 e
        (te.1, acc.2 ++ [te.2])) acc).1.lastEventId) ∧
    (((es.foldl (fun (acc : Track × List MidiEvent) e =>
        let te := addEventRaw acc.1 e
        (te.1, acc.2 ++ [te.2])) acc).2.map (fun x => x.id)).Sorted (· < ·)) ∧
    (∀ x ∈ (es.foldl (fun (acc : Track × List MidiEvent) e =>
        let te := addEventRaw acc.1 e
        (te.1, acc.2 ++ [te.2])) acc).2,
      x ∈ acc.2 ∨ acc.1.lastEventId ≤ x.id) := by
  intro es
  induction es with
  | nil =>
    intro acc hb hs
    refine ⟨by simp, hb, hs, fun x hx => Or.inl hx⟩
  | cons e es ih =>
    intro acc hb hs
    rw [List.foldl_cons]
    obtain ⟨hev, hlast, _, hid, _, _⟩ := addEventRaw_spec acc.1 e
    have hb' : ∀ x ∈ acc.2 ++ [(addEventRaw acc.1 e).2],
        x.id < (addEventRaw acc.1 e).1.lastEventId := by
      intro x hx
      rw [hlast]
      rcases List.mem_append.mp hx with h2 | h2
      · exact lt_trans (hb x h2) (lt_add_one _)
      · rw [List.mem_singleton.mp h2, hid]
        exact lt_add_one _
    have hs' : (((acc.2 ++ [(addEventRaw acc.1 e).2]).map
        (fun x => x.id)).Sorted (· < ·)) := by
      rw [List.map_append]
      rw [List.Sorted, List.pairwise_append]
      refine ⟨hs, List.sorted_singleton _, ?_⟩
      intro a ha b hbb
      simp only [List.map_cons, List.map_nil, List.mem_singleton] at hbb
      obtain ⟨x, hx, hxy⟩ := List.mem_map.mp ha
      rw [hbb, hid, ← hxy]
      exact hb x hx
    obtain ⟨ih1, ih2, ih3, ih4⟩ :=
      ih ((addEventRaw acc.1 e).1, acc.2 ++ [(addEventRaw acc.1 e).2]) hb' hs'
    refine ⟨?_, ih2, ih3, ?_⟩
    · rw [ih1]
      dsimp only
      rw [hlast]
      simp only [List.length_cons]
      push_cast
      ring
    · intro x hx
      rcases ih4 x hx with h2 | h2
      · rcases List.mem_append.mp h2 with h3 | h3
        · exact Or.inl h3
        · rw [List.mem_singleton.mp h3]
          exact Or.inr (le_of_eq hid.symm)
      · dsimp only at h2
        rw [hlast] at h2
        exact Or.inr (le_trans (le_of_lt (lt_add_one _)) h2)

theorem addEventsF_ids {n : Nat} {t : Track} {es : List MidiEvent} {t' : Track}
    {rs : List MidiEvent} (h : addEventsF n t es = some (t', rs)) :
    t'.lastEventId = t.lastEventId + (es.length : Int) ∧
    ((rs.map (fun x => x.id)).Sorted (· < ·)) ∧
    (∀ x ∈ rs, t.lastEventId ≤ x.id ∧ x.id < t'.lastEventId) := by
  unfold addEventsF at h
  obtain ⟨t2, h2, h3⟩ := Option.map_eq_some'.mp h
  have ht' : t' = t2 := (congrArg Prod.fst h3).symm
  have hrs : rs = (es.foldl (fun (acc : Track × List MidiEvent) e =>
      let te := addEventRaw acc.1 e
      (te.1, acc.2 ++ [te.2])) (t, [])).2 := (congrArg Prod.snd h3).symm
  obtain ⟨f1, f2, f3, f4⟩ := addFold_spec es (t, [])
    (by intro x hx; cases hx) (by exact List.sorted_nil)
  have hlast' : t'.lastEventId = t.lastEventId + (es.length : Int) := by
    rw [ht', (didAddEventF_frame h2).1, f1]
  refine ⟨hlast', by rw [hrs]; exact f3, ?_⟩
  intro x hx
  rw [hrs] at hx
  constructor
  · rcases f4 x hx with h4 | h4
    · cases h4
    · exact h4
  · rw [hlast', ← f1]
    exact f2 x hx

theorem removeEventF_lastEventId {n : Nat} {t : Track} {i : Int} {t' : Track}
    (h : removeEventF n t i = some t') : t'.lastEventId = t.lastEventId := by
  unfold removeEventF at h
  cases hf : t.getEventById i with
  | none => rw [hf] at h; exact (updateEndOfTrackF_frame h).1
  | some obj => rw [hf] at h; exact (updateEndOfTrackF_frame h).1

theorem removeEventsF_lastEventId {n : Nat} {t : Track} {ids : List Int}
    {t' : Track} (h : removeEventsF n t ids = some t') :
    t'.lastEventId = t.lastEventId := by
  unfold removeEventsF at h
  exact (updateEndOfTrackF_frame h).1

theorem insOpStep_spec {n : Nat} {t : Track} {op : InsOp} {t1 : Track}
    {ids1 : List Int}
    (hop : (match op with
      | InsOp.addE e => (addEventF n t e).map
          (fun (r : Track × MidiEvent) => (r.1, [r.2.id]))
      | InsOp.addMany es => (addEventsF n t es).map
          (fun (r : Track × List MidiEvent) =>
            (r.1, r.2.map (fun (x : MidiEvent) => x.id)))
      | InsOp.removeE i => (removeEventF n t i).map
          (fun (t2 : Track) => (t2, ([] : List Int)))
      | InsOp.removeMany rids => (removeEventsF n t rids).map
          (fun (t2 : Track) => (t2, ([] : List Int)))) = some (t1, ids1)) :
    t.lastEventId ≤ t1.lastEventId ∧ (ids1.Sorted (· < ·)) ∧
      (∀ i ∈ ids1, t.lastEventId ≤ i ∧ i < t1.lastEventId) := by
  cases op with
  | addE e =>
    obtain ⟨⟨ta, ra⟩, h2, h3⟩ := Option.map_eq_some'.mp hop
    obtain ⟨hrid, hlast⟩ := addEventF_ids h2
    have ht1 : t1 = ta := (congrArg Prod.fst h3).symm
    have hids1 : ids1 = [ra.id] := (congrArg Prod.snd h3).symm
    subst ht1
    subst hids1
    rw [hlast, hrid]
    refine ⟨le_of_lt (lt_add_one _), List.sorted_singleton _, ?_⟩
    intro i hi
    rw [List.mem_singleton.mp hi]
    exact ⟨le_refl _, lt_add_one _⟩
  | addMany es =>
    obtain ⟨⟨ta, ra⟩, h2, h3⟩ := Option.map_eq_some'.mp hop
    obtain ⟨hlast, hsort, hbnd⟩ := addEventsF_ids h2
    have ht1 : t1 = ta := (congrArg Prod.fst h3).symm
    have hids1 : ids1 = ra.map (fun x => x.id) := (congrArg Prod.snd h3).symm
    subst ht1
    subst hids1
    refine ⟨by rw [hlast]; exact le_add_of_nonneg_right (Int.ofNat_nonneg _),
      hsort, ?_⟩
    intro i hi
    obtain ⟨x, hx, hxy⟩ := List.mem_map.mp hi
    rw [← hxy]
    exact hbnd x hx
  | removeE j =>
    obtain ⟨ta, h2, h3⟩ := Option.map_eq_some'.mp hop
    have ht1 : t1 = ta := (congrArg Prod.fst h3).symm
    have hids1 : ids1 = [] := (congrArg Prod.snd h3).symm
    subst ht1
    subst hids1
    rw [removeEventF_lastEventId h2]
    exact ⟨le_refl _, List.sorted_nil, fun i hi => absurd hi (List.not_mem_nil i)⟩
  | removeMany rids =>
    obtain ⟨ta, h2, h3⟩ := Option.map_eq_some'.mp hop
    have ht1 : t1 = ta := (congrArg Prod.fst h3).symm
    have hids1 : ids1 = [] := (congrArg Prod.snd h3).symm
    subst ht1
    subst hids1
    rw [removeEventsF_lastEventId h2]
    exact ⟨le_refl _, List.sorted_nil, fun i hi => absurd hi (List.not_mem_nil i)⟩

theorem runInsOpsF_spec : ∀ (ops : List InsOp) (n : Nat) (t tf : Track)
    (ids : List Int), runInsOpsF n t ops = some (tf, ids) →
    t.lastEventId ≤ tf.lastEventId ∧
    (ids.Sorted (· < ·)) ∧
    (∀ i ∈ ids, t.lastEventId ≤ i ∧ i < tf.lastEventId) := by
  intro ops
  induction ops with
  | nil =>
    intro n t tf ids h
    unfold runInsOpsF at h
    simp at h
    obtain ⟨h1, h2⟩ := h
    subst h1
    subst h2
    exact ⟨le_refl _, List.sorted_nil, fun i hi => absurd hi (List.not_mem_nil i)⟩
  | cons op rest ih =>
    intro n t tf ids h
    unfold runInsOpsF at h
    cases hs : (match op with
        | InsOp.addE e => (addEventF n t e).map
            (fun (r : Track × MidiEvent) => (r.1, [r.2.id]))
        | InsOp.addMany es => (addEventsF n t es).map
            (fun (r : Track × List MidiEvent) =>
              (r.1, r.2.map (fun (x : MidiEvent) => x.id)))
        | InsOp.removeE i => (removeEventF n t i).map
            (fun (t2 : Track) => (t2, ([] : List Int)))
        | InsOp.removeMany rids => (removeEventsF n t rids).map
            (fun (t2 : Track) => (t2, ([] : List Int)))) with
    | none => rw [hs] at h; cases h
    | some pr =>
      rw [hs] at h
      obtain ⟨t1, ids1⟩ := pr
      dsimp only at h
      cases hr : runInsOpsF n t1 rest with
      | none => rw [hr] at h; cases h
      | some pr2 =>
        rw [hr] at h
        obtain ⟨t2, ids2⟩ := pr2
        dsimp only at h
        obtain ⟨h1, h2⟩ : t2 = tf ∧ ids1 ++ ids2 = ids := by
          cases h
          exact ⟨rfl, rfl⟩
        obtain ⟨s1, s2, s3⟩ := insOpStep_spec hs
        obtain ⟨r1, r2, r3⟩ := ih n t1 t2 ids2 hr
        rw [← h1, ← h2]
        refine ⟨le_trans s1 r1, ?_, ?_⟩
        · rw [List.Sorted, List.pairwise_append]
          refine ⟨s2, r2, ?_⟩
          intro a ha b hbb
          exact lt_of_lt_of_le (s3 a ha).2 (r3 b hbb).1
        · intro i hi
          rcases List.mem_append.mp hi with h4 | h4
          · exact ⟨(s3 i h4).1, lt_of_lt_of_le (s3 i h4).2 r1⟩
          · exact ⟨le_trans s1 (r3 i h4).1, (r3 i h4).2⟩

end Track

/-! Helpers for the merge-or-insert and idempotence claims. -/

namespace Track

theorem setFirstById_decomp {l : List MidiEvent} {i : Int} {x : MidiEvent}
    (v : MidiEvent) (hf : l.find? (fun e => e.id == i) = some x) :
    ∃ l1 l2, l = l1 ++ x :: l2 ∧ setFirstById l i v = l1 ++ v :: l2 := by
  induction l with
  | nil => simp at hf
  | cons y ys ih =>
    by_cases hy : y.id = i
    · have hxy : x = y := by
        have hb : (y.id == i) = true := by simp [hy]
        simp only [List.find?, hb] at hf
        exact (Option.some.inj hf).symm
      subst hxy
      refine ⟨[], ys, by simp, ?_⟩
      simp [setFirstById, hy]
    · have hb : (y.id == i) = false := by simp [hy]
      simp only [List.find?, hb] at hf
      obtain ⟨l1, l2, hl, hsf⟩ := ih hf
      refine ⟨y :: l1, l2, by rw [hl]; rfl, ?_⟩
      simp [setFirstById, hy, hsf]

theorem strip_eq_self_of_not_eot {v : MidiEvent}
    (hv : isEndOfTrackB v = false) : stripEotTick v = v :=
  stripEotTick_of_not_eot hv

theorem eq_of_strip_eq_not_eot {z v : MidiEvent} (hv : isEndOfTrackB v = false)
    (h : stripEotTick z = stripEotTick v) : z = v := by
  have hz : isEndOfTrackB z = false := by
    unfold isEndOfTrackB at hv ⊢
    have hsub : z.subtype = v.subtype := by
      rw [← stripEotTick_subtype z, ← stripEotTick_subtype v, h]
    rw [hsub]
    exact hv
  rw [← strip_eq_self_of_not_eot hz, h, strip_eq_self_of_not_eot hv]

theorem mem_of_strip_perm {l l' : List MidiEvent}
    (hperm : (l'.map stripEotTick).Perm (l.map stripEotTick))
    {v : MidiEvent} (hv : v ∈ l) (hne : isEndOfTrackB v = false) : v ∈ l' := by
  have h1 : stripEotTick v ∈ l.map stripEotTick := List.mem_map_of_mem _ hv
  have h2 : stripEotTick v ∈ l'.map stripEotTick := hperm.mem_iff.mpr h1
  obtain ⟨z, hz, hzv⟩ := List.mem_map.mp h2
  rw [← eq_of_strip_eq_not_eot hne hzv]
  exact hz

theorem keyMatch_strip {ne : MidiEvent} (hs : ne.subtype ≠ some "endOfTrack")
    (x : MidiEvent) : keyMatchB ne (stripEotTick x) = keyMatchB ne x := by
  by_cases hx : isEndOfTrackB x = true
  · unfold keyMatchB
    have h1 : (stripEotTick x).subtype = x.subtype := stripEotTick_subtype x
    have h2 : x.subtype = some "endOfTrack" := by
      unfold isEndOfTrackB at hx
      simpa using hx
    have h3 : (x.subtype == ne.subtype) = false := by
      rw [h2]
      simp
      intro hcon
      exact hs hcon.symm
    rw [h1, h3]
    simp
  · rw [strip_eq_self_of_not_eot (Bool.not_eq_true _ ▸ hx)]

theorem nodup_of_idsNodup {l : List MidiEvent} (h : IdsNodup l) : l.Nodup :=
  List.Nodup.of_map _ h

theorem filter_eq_singleton {l : List MidiEvent} {p : MidiEvent → Bool}
    {a : MidiEvent} (hmem : a ∈ l) (hnd : l.Nodup)
    (hiff : ∀ x ∈ l, p x = true ↔ x = a) : l.filter p = [a] := by
  induction l with
  | nil => cases hmem
  | cons y ys ih =>
    rcases List.mem_cons.mp hmem with hya | hmem'
    · have hpy : p y = true := (hiff y (by simp)).mpr hya.symm
      have hrest : ys.filter p = [] := by
        rw [List.filter_eq_nil_iff]
        intro x hx hpx
        have h4 := (hiff x (List.mem_cons_of_mem _ hx)).mp hpx
        subst h4
        rw [hya] at hx
        exact (List.nodup_cons.mp hnd).1 hx
      rw [List.filter_cons_of_pos hpy, hrest, hya]
    · have hya : y ≠ a := by
        intro hcon
        rw [hcon] at hnd
        exact (List.nodup_cons.mp hnd).1 hmem'
      have hpy : p y = false := by
        cases hp : p y with
        | false => rfl
        | true => exact absurd ((hiff y (by simp)).mp hp) hya
      rw [List.filter_cons_of_neg (by rw [hpy]; exact Bool.false_ne_true)]
      exact ih hmem' (List.nodup_cons.mp hnd).2
        (fun x hx => hiff x (List.mem_cons_of_mem _ hx))

theorem didAddEventF_strip {n : Nat} {t t' : Track} (hnd : IdsNodup t.events)
    (h : didAddEventF n t = some t') :
    (t'.events.map stripEotTick).Perm (t.events.map stripEotTick) := by
  unfold didAddEventF at h
  obtain ⟨t2, h2, h3⟩ := Option.map_eq_some'.mp h
  have hp1 := updateEndOfTrackF_strip hnd h2
  rw [← h3]
  exact ((sortByTick_perm t2).map _).trans hp1

theorem updateEventF_ids_perm {n : Nat} {t : Track} {i : Int} {p : EventPatch}
    {t' : Track} {r : Option MidiEvent} (hnd : IdsNodup t.events)
    (hpi : p.id = none ∨ p.id = some i)
    (h : updateEventF n t i p = some (t', r)) :
    (t'.events.map (fun e => e.id)).Perm (t.events.map (fun e => e.id)) := by
  have h1 := map_id_of_map_strip (updateEventF_strip n hnd hpi h)
  rw [updateEventRaw_map_id hpi] at h1
  exact h1

end Track

/-! Key-filter helpers for the merge-or-insert claim. -/

namespace Track

theorem idsNodup_addEventRaw {t : Track} {e : MidiEvent}
    (hnd : IdsNodup t.events) (hb : IdBound t) :
    IdsNodup (addEventRaw t e).1.events := by
  obtain ⟨hev, _, _, hid, _, _⟩ := addEventRaw_spec t e
  unfold IdsNodup
  rw [hev, List.map_append, List.nodup_append]
  refine ⟨hnd, List.nodup_singleton _, ?_⟩
  intro a ha hb2
  simp only [List.map_cons, List.map_nil, List.mem_singleton] at hb2
  rw [hb2, hid] at ha
  obtain ⟨x, hx, hxy⟩ := List.mem_map.mp ha
  exact absurd hxy (ne_of_lt (hb x hx))

theorem addEventRaw_key {t : Track} {e : MidiEvent} (hv : e.tick ≠ none) :
    (addEventRaw t e).2.etype = e.etype ∧
    (addEventRaw t e).2.subtype = e.subtype ∧
    (addEventRaw t e).2.tick = e.tick ∧
    (addEventRaw t e).2.id = t.lastEventId := by
  unfold addEventRaw
  dsimp only
  rw [if_neg hv]
  split <;> exact ⟨rfl, rfl, rfl, rfl⟩

theorem keyMatchB_congr {ne1 ne2 : MidiEvent}
    (h1 : ne2.etype = ne1.etype) (h2 : ne2.subtype = ne1.subtype)
    (h3 : ne2.tick = ne1.tick) (z : MidiEvent) :
    keyMatchB ne2 z = keyMatchB ne1 z := by
  unfold keyMatchB
  rw [h1, h2, h3]

theorem keyMatchB_fields {ne x : MidiEvent} (h : keyMatchB ne x = true) :
    x.etype = ne.etype ∧ x.subtype = ne.subtype ∧ x.tick = ne.tick := by
  unfold keyMatchB at h
  simp only [Bool.and_eq_true, beq_iff_eq] at h
  exact ⟨h.1.1, h.1.2, h.2⟩

theorem keyMatchB_of_fields {ne x : MidiEvent} (h1 : x.etype = ne.etype)
    (h2 : x.subtype = ne.subtype) (h3 : x.tick = ne.tick) :
    keyMatchB ne x = true := by
  unfold keyMatchB
  rw [h1, h2, h3]
  simp

theorem countP_key_strip {ne : MidiEvent} (hs : ne.subtype ≠ some "endOfTrack")
    (l : List MidiEvent) :
    (l.map stripEotTick).countP (keyMatchB ne) = l.countP (keyMatchB ne) := by
  rw [List.countP_map]
  refine List.countP_congr ?_
  intro x _
  rw [show (keyMatchB ne ∘ stripEotTick) x = keyMatchB ne (stripEotTick x)
    from rfl, keyMatch_strip hs x]

end Track

/-! Claim theorems. -/

namespace Track

/--
Claim C1: after every public mutation (addEvent, addEvents, updateEvent,
updateEvents, removeEvent, removeEvents, createOrUpdate, changeChannel, any
derived-parameter setter) completes, the track's events sequence is sorted
non-decreasing by tick, for every state reachable from the empty track —
including through the removal operations, which do not themselves sort.
-/
theorem trackC1 {t : Track} (h : Reachable t) : t.events.Sorted tickLe :=
  sorted_of_reachable h

theorem trackC1_witness : exC1Track.events.Sorted tickLe :=
  trackC1 (Reachable.addEvent 2 Track.empty exNote5 exC1Track exNote5
    Reachable.empty (by decide))

/--
Claim C2, counterexample: one public mutation (`addEvent` of a plain note on
the empty track) leaves the store nonempty while the end-of-track marker is
absent — the claim demanded the marker equal `max(tick + duration-or-0) = 5`
and be absent only for an empty store.  The marker lives in the last
`endOfTrack`-subtype event, and a track holding no such event has no place
to store it.
-/
theorem trackC2_counterexample :
    (addEventF 2 Track.empty exNote5).map
      (fun r => (endOfTrack r.1, r.1.events.length)) = some (none, 1) := by
  decide

/--
Claim C2 (amended): for every state reachable by spec-domain mutations
(update records never relabel ids, durations are nonnegative), the
end-of-track marker — the `tick` of the last `endOfTrack`-subtype event —
equals `max(tick + duration-or-0)` over all events whenever at least one
`endOfTrack`-subtype event exists, and the marker is absent exactly when no
`endOfTrack`-subtype event exists (not when the store is empty).
-/
theorem trackC2 {t : Track} (h : ReachableNN t) :
    (endOfTrack t = none ↔ t.events.filter isEndOfTrackB = []) ∧
    (∀ e, (t.events.filter isEndOfTrackB).getLast? = some e →
      endOfTrack t = maxEnd t.events) := by
  obtain ⟨⟨_, hts, _⟩, _, hfx⟩ := invNN_of_reachableNN h
  constructor
  · constructor
    · intro hnone
      cases hgl : (t.events.filter isEndOfTrackB).getLast? with
      | none => exact List.getLast?_eq_none_iff.mp hgl
      | some e =>
        exfalso
        have hmem : e ∈ t.events :=
          (List.mem_filter.mp (List.mem_of_mem_getLast? hgl)).1
        have hval : endOfTrack t = e.tick := by
          unfold endOfTrack findEndOfTrackEvents
          rw [hgl]
          rfl
        obtain ⟨k, hk⟩ := Option.isSome_iff_exists.mp (hts e hmem)
        rw [hval, hk] at hnone
        cases hnone
    · intro hnil
      unfold endOfTrack findEndOfTrackEvents
      rw [hnil]
      rfl
  · intro e hgl
    have h2 := hfx e hgl
    unfold endOfTrack findEndOfTrackEvents
    rw [hgl]
    exact h2

theorem trackC2_witness :
    endOfTrack exC1Track = none ↔ exC1Track.events.filter isEndOfTrackB = [] :=
  (trackC2 (ReachableNN.addEvent 2 Track.empty exNote5 exC1Track exNote5
    ReachableNN.empty (by decide) (by decide))).1

/--
Claim C4, evaluated at the failing input (code bug): the `name` setter writes
the shorthand record `{ value }`, i.e. the `value` field, not the `text`
field the getter reads.  Setting the name to "B" on a track whose single
`trackName` event has `text = "A"` leaves the getter returning "A" and
stores the string "B" in the event's `value` field, breaking the set/get
round-trip the specification describes.
-/
theorem trackC4_bug :
    (setNameF 2 exNameTrack "B").map
      (fun t' => (name t', t'.events.map (fun e => e.value))) =
      some (some "A", [some (JsVal.str "B")]) := by
  decide

end Track

namespace Track

/--
Claim C7: after `changeChannel c` on any track, the track's channel equals
`c`, every `"channel"`-typed event carries `channel = c`, and every event of
any other type is completely unchanged, in place: position `i` of the new
event list holds exactly the old event when it is not channel-typed.
-/
theorem trackC7 (t : Track) (c : Int) :
    (changeChannel t c).channel = some c ∧
    (∀ e ∈ (changeChannel t c).events, e.etype = some "channel" →
      e.channel = some c) ∧
    (∀ i : Nat, (changeChannel t c).events[i]? =
      (t.events[i]?).map
        (fun e => if e.etype = some "channel" then { e with channel := some c }
                  else e)) ∧
    (∀ i : Nat, ∀ e, t.events[i]? = some e →
      e.etype ≠ some "channel" → (changeChannel t c).events[i]? = some e) := by
  have hpos : ∀ i : Nat, (changeChannel t c).events[i]? =
      (t.events[i]?).map
        (fun e => if e.etype = some "channel" then { e with channel := some c }
                  else e) := by
    intro i
    unfold changeChannel
    exact List.getElem?_map _ _ i
  refine ⟨rfl, ?_, hpos, ?_⟩
  · intro e he hty
    unfold changeChannel at he
    obtain ⟨x, hx, hxy⟩ := List.mem_map.mp he
    by_cases hc : x.etype = some "channel"
    · rw [← hxy]
      simp [hc]
    · rw [← hxy] at hty
      rw [if_neg hc] at hty
      exact absurd hty hc
  · intro i e he hne
    rw [hpos i, he]
    simp [hne]

theorem trackC7_witness :
    (changeChannel exChanTrack 9).channel = some 9 ∧
    (changeChannel exChanTrack 9).events[1]? = some exChanEvent1 := by
  refine ⟨(trackC7 exChanTrack 9).1, ?_⟩
  exact (trackC7 exChanTrack 9).2.2.2 1 exChanEvent1 (by decide) (by decide)

/--
Claim C8: setting any of the six derived parameters (name, volume, pan,
program number, tempo, end of track) on a track with zero events matching
that parameter's predicate is a silent no-op: the track is returned
unchanged, no event is created, no error is raised, and the getter still
returns absent afterwards (for tempo, the JavaScript `60000000 / undefined`
produces `NaN`, modelled as the absent value).
-/
theorem trackC8 (n : Nat) (t : Track) (s : String) (v : Int) (bpm : Rat)
    (tk : Option Int) :
    (findTrackNameEvents t = [] → setNameF n t s = some t ∧ name t = none) ∧
    (findVolumeEvents t = [] → setVolumeF n t v = some t ∧ volume t = none) ∧
    (findPanEvents t = [] → setPanF n t v = some t ∧ pan t = none) ∧
    (findProgramChangeEvents t = [] →
      setProgramNumberF n t v = some t ∧ programNumber t = none) ∧
    (findSetTempoEvents t = [] → setTempoF n t bpm = some t ∧ tempo t = none) ∧
    (findEndOfTrackEvents t = [] →
      setEndOfTrackF n t tk = some t ∧ endOfTrack t = none) := by
  refine ⟨?_, ?_, ?_, ?_, ?_, ?_⟩ <;>
    (intro hempty
     constructor
     · simp [setNameF, setVolumeF, setPanF, setProgramNumberF, setTempoF,
         setEndOfTrackF, updateLastF, hempty]
     · simp [name, volume, pan, programNumber, tempo, endOfTrack, hempty])

theorem trackC8_witness :
    setTempoF 1 Track.empty 2 = some Track.empty ∧ tempo Track.empty = none :=
  (trackC8 1 Track.empty "x" 0 2 none).2.2.2.2.1 (by decide)

end Track

namespace Track

/--
Claim C9, counterexample: `updateEvent` with a field record containing an
`id` entry rewrites the stored event's id — `Object.assign` copies every
field of the record, `id` included — so ids are not immutable under
arbitrary update records as the claim states (the stored id becomes 7, the
claim demands it stay 0).
-/
theorem trackC9_counterexample :
    (updateEventF 3 exIdTrack 0 { id := some 7 }).map
      (fun r => r.1.events.map (fun e => e.id)) = some [7] := by
  decide

/--
Claim C9 (amended): an event's id is never changed by `updateEvents` (whose
records address their own `id`), nor by `updateEvent` whenever the record's
`id` entry is absent or equals the target id: the multiset of stored ids is
preserved exactly (the list may be reordered by the automatic resort).
-/
theorem trackC9 :
    (∀ (n : Nat) (t : Track) (i : Int) (p : EventPatch) (t' : Track)
      (r : Option MidiEvent), IdsNodup t.events →
      (p.id = none ∨ p.id = some i) → updateEventF n t i p = some (t', r) →
      (t'.events.map (fun e => e.id)).Perm (t.events.map (fun e => e.id))) ∧
    (∀ (n : Nat) (t : Track) (ps : List EventPatch) (t' : Track),
      IdsNodup t.events → updateEventsF n t ps = some t' →
      (t'.events.map (fun e => e.id)).Perm (t.events.map (fun e => e.id))) := by
  constructor
  · intro n t i p t' r hnd hpi h
    exact updateEventF_ids_perm hnd hpi h
  · intro n t ps t' hnd h
    unfold updateEventsF at h
    obtain ⟨t2, h2, h3⟩ := Option.map_eq_some'.mp h
    have hfold : ∀ (qs : List EventPatch) (acc : Track),
        ((qs.foldl (fun acc p =>
          match p.id with
          | some i => (updateEventRaw acc i p).1
          | none => acc) acc).events.map (fun e => e.id)) =
        acc.events.map (fun e => e.id) := by
      intro qs
      induction qs with
      | nil => intro acc; rfl
      | cons q qs ih =>
        intro acc
        rw [List.foldl_cons]
        rw [ih]
        cases hqi : q.id with
        | none => rfl
        | some i => exact updateEventRaw_map_id (Or.inr hqi)
    have hids1 : ((ps.foldl (fun acc p =>
        match p.id with
        | some i => (updateEventRaw acc i p).1
        | none => acc) t).events.map (fun e => e.id)) =
        t.events.map (fun e => e.id) := hfold ps t
    have hnd1 : IdsNodup ((ps.foldl (fun acc p =>
        match p.id with
        | some i => (updateEventRaw acc i p).1
        | none => acc) t).events) := by
      unfold IdsNodup
      rw [hids1]
      exact hnd
    have hp2 := map_id_of_map_strip (updateEndOfTrackF_strip hnd1 h2)
    rw [← h3]
    have hsort := (sortByTick_perm t2).map (fun (e : MidiEvent) => e.id)
    exact (hsort.trans hp2).trans (by rw [hids1])

theorem trackC9_witness :
    (exC9Result.events.map (fun e => e.id)).Perm
      (exIdTrack.events.map (fun e => e.id)) :=
  trackC9.1 3 exIdTrack 0 { tick := some 2 } exC9Result
    (some { exIdEvent with tick := some 2 }) (by unfold IdsNodup; decide)
    (Or.inl rfl) (by decide)

/--
Claim C10: when `addEvent`/`addEvents` inserts an event with no `tick`, the
stored tick equals `deltaTime + 0` exactly: the previous-event lookup
`getEventById(this.lastEventId)` runs after the increment, so it searches
for the next id to be allocated, which no stored event carries while every
stored id is below the allocator counter; the base-tick contribution is
therefore always `0`.  The second conjunct confirms the resolved event is
what was pushed into the store.
-/
theorem trackC10 (t : Track) (e : MidiEvent) (hb : IdBound t)
    (ht : e.tick = none) :
    ((addEventRaw t e).2).tick = some ((e.deltaTime).getD 0) ∧
    (addEventRaw t e).1.events.getLast? = some (addEventRaw t e).2 := by
  have hfind : (t.events ++ [({ e with id := t.lastEventId } : MidiEvent)]).find?
      (fun x => x.id == t.lastEventId + 1) = none := by
    rw [List.find?_eq_none]
    intro x hx
    rcases List.mem_append.mp hx with h2 | h2
    · have := hb x h2
      simp only [beq_iff_eq]
      exact ne_of_lt (lt_trans this (lt_add_one _))
    · rw [List.mem_singleton.mp h2]
      simp only [beq_iff_eq]
      show t.lastEventId ≠ t.lastEventId + 1
      exact ne_of_lt (lt_add_one _)
  constructor
  · unfold addEventRaw
    dsimp only
    rw [if_pos ht, hfind]
    split <;> simp
  · unfold addEventRaw
    dsimp only
    rw [if_pos ht, hfind]
    split <;> exact List.getLast?_concat _

theorem trackC10_witness :
    ((addEventRaw Track.empty exDeltaEvent).2).tick = some 7 ∧
    (addEventRaw Track.empty exDeltaEvent).1.events.getLast? =
      some (addEventRaw Track.empty exDeltaEvent).2 :=
  trackC10 Track.empty exDeltaEvent (by intro x hx; cases hx) rfl

/--
Claim C3: across any two consecutive runs of insertions (addEvent /
addEvents) interleaved with removals (removeEvent / removeEvents), starting
from any track state, the assigned ids — collected in allocation order —
are strictly increasing across both runs (hence pairwise distinct), and
every assigned id is at least the starting allocator value and below the
final one: ids assigned earlier are never reused, and removals never free
an id for reuse.
-/
theorem trackC3 (n m : Nat) (t0 t1 t2 : Track) (ops1 ops2 : List InsOp)
    (ids1 ids2 : List Int) (h1 : runInsOpsF n t0 ops1 = some (t1, ids1))
    (h2 : runInsOpsF m t1 ops2 = some (t2, ids2)) :
    ((ids1 ++ ids2).Sorted (· < ·)) ∧
    (∀ i ∈ ids1 ++ ids2, t0.lastEventId ≤ i ∧ i < t2.lastEventId) := by
  obtain ⟨a1, a2, a3⟩ := runInsOpsF_spec ops1 n t0 t1 ids1 h1
  obtain ⟨b1, b2, b3⟩ := runInsOpsF_spec ops2 m t1 t2 ids2 h2
  constructor
  · rw [List.Sorted, List.pairwise_append]
    exact ⟨a2, b2, fun a ha b hb => lt_of_lt_of_le (a3 a ha).2 (b3 b hb).1⟩
  · intro i hi
    rcases List.mem_append.mp hi with h | h
    · exact ⟨(a3 i h).1, lt_of_lt_of_le (a3 i h).2 b1⟩
    · exact ⟨le_trans a1 (b3 i h).1, (b3 i h).2⟩

theorem trackC3_witness :
    (([0] ++ [1] : List Int)).Sorted (· < ·) :=
  (trackC3 3 3 Track.empty exC1Track exC3Track2
    [InsOp.addE exNote5] [InsOp.addMany [exNote5], InsOp.removeE 0]
    [0] [1] (by decide) (by decide)).1

end Track

namespace Track

/--
Claim C5, counterexample: updating an `endOfTrack` event's tick is not
idempotent in the claimed sense.  On a track holding an `endOfTrack` event
(tick 5) and a note (tick 10), `updateEvent(0, { tick: 3 })` merges tick 3
but the automatic end-of-track recomputation immediately rewrites that
event's tick to the max extent 10; the second identical call therefore
finds tick 10 ≠ 3, is *not* a no-op, and produces a change notification
(a non-`null` return), contradicting the claim's "second application
produces no change notification".
-/
theorem trackC5_counterexample :
    ((updateEventF 6 exEotTrack 0 exPatchTick3).bind
      (fun r => (updateEventF 6 r.1 0 exPatchTick3).map
        (fun r2 => r2.2.isSome))) = some true := by
  decide

/--
Claim C5 (amended): `updateEvent` is idempotent provided the stored ids are
pairwise distinct, the record does not relabel the target id, and the merged
event is not an `endOfTrack`-subtype event (whose tick the automatic
end-of-track recomputation may rewrite between the two calls).  Under these
conditions, once `updateEvent(i, p)` has produced `t1`, running it again
returns `t1` itself with a `null` result: the store state is unchanged, and
no change notification, re-sort, or end-of-track recomputation occurs.
-/
theorem trackC5 (n m : Nat) (t : Track) (i : Int) (p : EventPatch)
    (e : MidiEvent) (t1 : Track) (r : Option MidiEvent)
    (hnd : IdsNodup t.events) (hf : t.getEventById i = some e)
    (hpi : p.id = none ∨ p.id = some i)
    (hne : (applyPatch e p).subtype ≠ some "endOfTrack")
    (h : updateEventF n t i p = some (t1, r)) :
    updateEventF (m + 1) t1 i p = some (t1, none) := by
  have horig := h
  cases n with
  | zero => simp [updateEventF] at h
  | succ n =>
    rw [updateEventF_succ] at h
    cases hr : updateEventRaw t i p with
    | mk t1' ro =>
      rw [hr] at h
      cases ro with
      | none =>
        simp at h
        obtain ⟨h1, _⟩ := h
        subst h1
        rw [updateEventF_succ, hr]
      | some ev =>
        obtain ⟨t2, hu, h2⟩ := Option.map_eq_some'.mp h
        obtain ⟨x, hfx, hev, hnemerge, ht1'⟩ := updateEventRaw_some_spec hr
        have hxe : x = e := Option.some.inj (hfx.symm.trans hf)
        have hev2 : ev = applyPatch e p := by rw [hev, hxe]
        have hevSub : isEndOfTrackB ev = false := by
          unfold isEndOfTrackB
          rw [hev2]
          exact beq_eq_false_iff_ne.mpr hne
        have hfind : t.events.find? (fun q => q.id == i) = some x := by
          have h3 := hfx
          unfold getEventById at h3
          exact h3
        have hxid : x.id = i := by
          have h3 := List.find?_some hfind
          simpa using h3
        have hevId : ev.id = i := by
          rcases hpi with h4 | h4
          · rw [hev, applyPatch_id_of_none _ _ h4, hxid]
          · rw [hev]
            show (applyPatch x p).id = i
            unfold applyPatch
            rw [h4]
            rfl
        have hmemSF : ev ∈ setFirstById t.events i ev := by
          obtain ⟨l1, l2, _, hsf⟩ := setFirstById_decomp ev hfind
          rw [hsf]
          simp
        have hperm : (t1.events.map stripEotTick).Perm
            ((setFirstById t.events i ev).map stripEotTick) := by
          have h3 := updateEventF_strip (Nat.succ n) hnd hpi horig
          rw [hr] at h3
          dsimp only at h3
          rw [ht1'] at h3
          exact h3
        have hNd1 : IdsNodup t1.events := by
          unfold IdsNodup
          exact ((updateEventF_ids_perm hnd hpi horig).nodup_iff).mpr hnd
        have hmem1 : ev ∈ t1.events := mem_of_strip_perm hperm hmemSF hevSub
        have hlook : t1.getEventById i = some ev := by
          unfold getEventById
          exact find?_by_id_unique t1.events hNd1 ev hmem1 i hevId
        have hmerge2 : applyPatch ev p = ev := by
          rw [hev2, applyPatch_idem]
        have hraw2 : updateEventRaw t1 i p = (t1, none) := by
          unfold updateEventRaw
          rw [hlook]
          simp [hmerge2]
        rw [updateEventF_succ, hraw2]

theorem trackC5_witness :
    updateEventF 1 exC9Result 0 { tick := some 2 } = some (exC9Result, none) :=
  trackC5 3 0 exIdTrack 0 { tick := some 2 } exIdEvent exC9Result
    (some { exIdEvent with tick := some 2 }) (by unfold IdsNodup; decide)
    (by decide) (Or.inl rfl) (by decide) (by decide)

end Track

namespace Track

/--
Claim C6, counterexample: two `createOrUpdate` calls with the same
`(type, subtype, tick)` candidate need not leave one stored event with that
key.  With an `endOfTrack`-subtype candidate (tick 5) on a track already
holding a note at tick 10, the automatic end-of-track recomputation rewrites
the inserted event's tick to 10 before the second call runs; the second call
then finds no `(meta, endOfTrack, 5)` match and inserts again.  The final
store holds three events and zero events with the candidate key — the claim
demands exactly one.
-/
theorem trackC6_counterexample :
    ((createOrUpdateF 8 exTrackG exEotCandidate).bind
      (fun r1 => (createOrUpdateF 8 r1.1 exEotCandidate).map
        (fun r2 => (r2.1.events.countP (keyMatchB exEotCandidate),
                    r2.1.events.length)))) = some (0, 3) := by
  decide

theorem c6_unique {t2 : Track} {merged ne2 : MidiEvent}
    (hcount : t2.events.countP (keyMatchB ne2) = 1)
    (hmem : merged ∈ t2.events) (hkeyM : keyMatchB ne2 merged = true) :
    ∀ x ∈ t2.events, keyMatchB ne2 x = true → x = merged := by
  intro x hx hkx
  have hlen : (t2.events.filter (keyMatchB ne2)).length = 1 := by
    rw [← List.countP_eq_length_filter]
    exact hcount
  obtain ⟨z, hz⟩ := List.length_eq_one.mp hlen
  have hmz : merged ∈ t2.events.filter (keyMatchB ne2) :=
    List.mem_filter.mpr ⟨hmem, hkeyM⟩
  have hxz : x ∈ t2.events.filter (keyMatchB ne2) :=
    List.mem_filter.mpr ⟨hx, hkx⟩
  rw [hz] at hmz hxz
  rw [List.mem_singleton.mp hxz, ← List.mem_singleton.mp hmz]

/--
Claim C6 (amended): `createOrUpdate` called twice with candidates sharing
the `(type, subtype, tick)` key implements merge-or-insert provided the
start state is well formed (distinct ids, bounded by the allocator), the
candidates carry an explicit tick and are not `endOfTrack`-subtype events
(whose tick the automatic end-of-track recomputation may rewrite between
the calls), and nothing in the start state matches the key.  Then exactly
one stored event carries the key afterwards; its id is the one allocated at
the first call's insertion (`t0.lastEventId`), its key fields are the
candidate's, and every field the second candidate defines has the second
candidate's value.
-/
theorem trackC6 (n m : Nat) (t0 : Track) (ne1 ne2 : MidiEvent) (v : Int)
    (t1 t2 : Track) (r1 r2 : MidiEvent)
    (hnd : IdsNodup t0.events) (hbound : IdBound t0)
    (htick : ne1.tick = some v)
    (hsub : ne1.subtype ≠ some "endOfTrack")
    (hkE : ne2.etype = ne1.etype) (hkS : ne2.subtype = ne1.subtype)
    (hkT : ne2.tick = ne1.tick)
    (hnom : ∀ x ∈ t0.events, keyMatchB ne1 x = false)
    (h1 : createOrUpdateF n t0 ne1 = some (t1, r1))
    (h2 : createOrUpdateF m t1 ne2 = some (t2, r2)) :
    t2.events.countP (keyMatchB ne2) = 1 ∧
    (∀ x ∈ t2.events, keyMatchB ne2 x = true →
      x.id = t0.lastEventId ∧
      x.etype = ne2.etype ∧ x.subtype = ne2.subtype ∧ x.tick = ne2.tick ∧
      (∀ w, ne2.value = some w → x.value = some w) ∧
      (∀ w, ne2.text = some w → x.text = some w) ∧
      (∀ w, ne2.duration = some w → x.duration = some w) ∧
      (∀ w, ne2.velocity = some w → x.velocity = some w) ∧
      (∀ w, ne2.controllerType = some w → x.controllerType = some w) ∧
      (∀ w, ne2.microsecondsPerBeat = some w →
        x.microsecondsPerBeat = some w) ∧
      (∀ w, ne2.channel = some w → x.channel = some w)) := by
  have hsub2 : ne2.subtype ≠ some "endOfTrack" := by
    rw [hkS]
    exact hsub
  -- call 1 inserts
  have hfl0 : t0.events.filter (keyMatchB ne1) = [] := by
    rw [List.filter_eq_nil_iff]
    intro x hx
    rw [hnom x hx]
    exact Bool.false_ne_true
  unfold createOrUpdateF at h1
  split at h1
  case _ =>
    unfold addEventF at h1
    obtain ⟨t1', hdid, hwrap⟩ := Option.map_eq_some'.mp h1
    have ht1 : t1 = t1' := (congrArg Prod.fst hwrap).symm
    obtain ⟨hkE3, hkS3, hkT3, hid3⟩ := addEventRaw_key (t := t0) (e := ne1)
      (by rw [htick]; simp)
    obtain ⟨hev, hlastTp, _, _, _, _⟩ := addEventRaw_spec t0 ne1
    have hndTp : IdsNodup (addEventRaw t0 ne1).1.events :=
      idsNodup_addEventRaw hnd hbound
    have hpermT1 : (t1.events.map stripEotTick).Perm
        ((addEventRaw t0 ne1).1.events.map stripEotTick) := by
      rw [ht1]
      exact didAddEventF_strip hndTp hdid
    have hidsT1 : (t1.events.map (fun e => e.id)).Perm
        ((addEventRaw t0 ne1).1.events.map (fun e => e.id)) :=
      map_id_of_map_strip hpermT1
    have hndT1 : IdsNodup t1.events := by
      unfold IdsNodup
      exact hidsT1.nodup_iff.mpr hndTp
    have he3ne : isEndOfTrackB (addEventRaw t0 ne1).2 = false := by
      unfold isEndOfTrackB
      rw [hkS3]
      exact beq_eq_false_iff_ne.mpr hsub
    have he3mem : (addEventRaw t0 ne1).2 ∈ t1.events :=
      mem_of_strip_perm hpermT1 (by rw [hev]; simp) he3ne
    have hkey3 : keyMatchB ne2 (addEventRaw t0 ne1).2 = true :=
      keyMatchB_of_fields (by rw [hkE3, hkE]) (by rw [hkS3, hkS])
        (by rw [hkT3, hkT])
    have hiff1 : ∀ x ∈ t1.events,
        keyMatchB ne2 x = true ↔ x = (addEventRaw t0 ne1).2 := by
      intro x hx
      constructor
      · intro hkx
        obtain ⟨hxE, hxS, hxT⟩ := keyMatchB_fields hkx
        have hxne : isEndOfTrackB x = false := by
          unfold isEndOfTrackB
          rw [hxS]
          exact beq_eq_false_iff_ne.mpr hsub2
        have h4 : stripEotTick x ∈
            (addEventRaw t0 ne1).1.events.map stripEotTick :=
          hpermT1.mem_iff.mp (List.mem_map_of_mem _ hx)
        obtain ⟨y, hy, hyx⟩ := List.mem_map.mp h4
        rw [hev] at hy
        rcases List.mem_append.mp hy with hy0 | hy3
        · exfalso
          cases hyeot : isEndOfTrackB y with
          | true =>
            have hxsy : x.subtype = y.subtype := by
              rw [← stripEotTick_subtype x, ← stripEotTick_subtype y, hyx]
            have hyS : y.subtype = some "endOfTrack" := by
              unfold isEndOfTrackB at hyeot
              simpa using hyeot
            rw [hxS, hyS] at hxsy
            exact hsub2 hxsy
          | false =>
            have hyy : stripEotTick y = y := strip_eq_self_of_not_eot hyeot
            have hxy : y = x := by
              rw [← hyy, hyx, strip_eq_self_of_not_eot hxne]
            have h5 : keyMatchB ne1 x = true := by
              rw [← keyMatchB_congr hkE hkS hkT x]
              exact hkx
            rw [← hxy] at h5
            rw [hnom y hy0] at h5
            cases h5
        · have hye3 : y = (addEventRaw t0 ne1).2 := List.mem_singleton.mp hy3
          rw [hye3, strip_eq_self_of_not_eot he3ne] at hyx
          rw [strip_eq_self_of_not_eot hxne] at hyx
          exact hyx.symm
      · intro hxe
        rw [hxe]
        exact hkey3
    have hfl1 : t1.events.filter (keyMatchB ne2) = [(addEventRaw t0 ne1).2] :=
      filter_eq_singleton he3mem (nodup_of_idsNodup hndT1) hiff1
    -- the merged event of call 2
    have hmid : (applyPatch (addEventRaw t0 ne1).2
        (patchOfEvent ne2 (addEventRaw t0 ne1).2.id)).id =
        (addEventRaw t0 ne1).2.id := rfl
    have hmE : (applyPatch (addEventRaw t0 ne1).2
        (patchOfEvent ne2 (addEventRaw t0 ne1).2.id)).etype = ne2.etype := by
      show (ne2.etype.or (addEventRaw t0 ne1).2.etype) = ne2.etype
      rw [hkE3, ← hkE]
      exact Option.or_self
    have hmS : (applyPatch (addEventRaw t0 ne1).2
        (patchOfEvent ne2 (addEventRaw t0 ne1).2.id)).subtype = ne2.subtype := by
      show (ne2.subtype.or (addEventRaw t0 ne1).2.subtype) = ne2.subtype
      rw [hkS3, ← hkS]
      exact Option.or_self
    have hmT : (applyPatch (addEventRaw t0 ne1).2
        (patchOfEvent ne2 (addEventRaw t0 ne1).2.id)).tick = ne2.tick := by
      show (ne2.tick.or (addEventRaw t0 ne1).2.tick) = ne2.tick
      rw [hkT, htick]
      rfl
    have hmne : isEndOfTrackB (applyPatch (addEventRaw t0 ne1).2
        (patchOfEvent ne2 (addEventRaw t0 ne1).2.id)) = false := by
      unfold isEndOfTrackB
      rw [hmS]
      exact beq_eq_false_iff_ne.mpr hsub2
    have hkeyM : keyMatchB ne2 (applyPatch (addEventRaw t0 ne1).2
        (patchOfEvent ne2 (addEventRaw t0 ne1).2.id)) = true :=
      keyMatchB_of_fields hmE hmS hmT
    have hlook1 : t1.events.find?
        (fun q => q.id == (addEventRaw t0 ne1).2.id) =
        some (addEventRaw t0 ne1).2 :=
      find?_by_id_unique t1.events hndT1 _ he3mem _ rfl
    have hcount1 : t1.events.countP (keyMatchB ne2) = 1 := by
      rw [List.countP_eq_length_filter, hfl1]
      rfl
    -- call 2 takes the update branch
    unfold createOrUpdateF at h2
    split at h2
    case _ hfl2 =>
      rw [hfl1] at hfl2
      cases hfl2
    case _ m2 ms2 hfl2 =>
      rw [hfl1] at hfl2
      injection hfl2 with hm2 hms2
      subst hms2
      obtain ⟨tfin, hfold, hwrap2⟩ := Option.map_eq_some'.mp h2
      have ht2 : t2 = tfin := (congrArg Prod.fst hwrap2).symm
      rw [List.foldlM_cons] at hfold
      cases hstep : (updateEventF m t1 m2.id (patchOfEvent ne2 m2.id)).map (·.1) with
      | none =>
        rw [hstep] at hfold
        cases hfold
      | some ta =>
        rw [hstep] at hfold
        have htateq : ta = tfin := Option.some.inj hfold
        obtain ⟨⟨ta2, ra2⟩, hu2, hmap2⟩ := Option.map_eq_some'.mp hstep
        have hta2 : ta2 = ta := hmap2
        -- t2 = ta2
        have ht2a : t2 = ta2 := by rw [ht2, ← htateq, hta2]
        -- key and count facts in t2
        have hcm : t2.events.countP (keyMatchB ne2) = 1 ∧
            (applyPatch (addEventRaw t0 ne1).2
              (patchOfEvent ne2 (addEventRaw t0 ne1).2.id)) ∈ t2.events := by
          rw [ht2a]
          rw [← hm2] at hu2
          by_cases hmeq : applyPatch (addEventRaw t0 ne1).2
              (patchOfEvent ne2 (addEventRaw t0 ne1).2.id) =
              (addEventRaw t0 ne1).2
          · have hraw : updateEventRaw t1 (addEventRaw t0 ne1).2.id
                (patchOfEvent ne2 (addEventRaw t0 ne1).2.id) = (t1, none) := by
              unfold updateEventRaw getEventById
              rw [hlook1]
              simp [hmeq]
            cases m with
            | zero => simp [updateEventF] at hu2
            | succ m' =>
              rw [updateEventF_succ, hraw] at hu2
              have h6 : (t1, (none : Option MidiEvent)) = (ta2, ra2) :=
                Option.some.inj hu2
              have hta2t1 : ta2 = t1 := (congrArg Prod.fst h6).symm
              rw [hta2t1]
              refine ⟨hcount1, ?_⟩
              rw [hmeq]
              exact he3mem
          · have hperm2 : (ta2.events.map stripEotTick).Perm
                ((setFirstById t1.events (addEventRaw t0 ne1).2.id
                  (applyPatch (addEventRaw t0 ne1).2
                    (patchOfEvent ne2 (addEventRaw t0 ne1).2.id))).map
                  stripEotTick) := by
              have h5 := updateEventF_strip m hndT1 (Or.inr rfl) hu2
              cases hr2 : updateEventRaw t1 (addEventRaw t0 ne1).2.id
                  (patchOfEvent ne2 (addEventRaw t0 ne1).2.id) with
              | mk tR roR =>
                cases roR with
                | none =>
                  exfalso
                  refine hmeq (updateEventRaw_none_merge hr2 _ ?_)
                  unfold getEventById
                  exact hlook1
                | some evR =>
                  obtain ⟨xR, hfxR, hevR, _, htR⟩ := updateEventRaw_some_spec hr2
                  have hxRe : xR = (addEventRaw t0 ne1).2 := by
                    have h6 := hfxR
                    unfold getEventById at h6
                    exact Option.some.inj (h6.symm.trans hlook1)
                  rw [hr2] at h5
                  dsimp only at h5
                  rw [htR] at h5
                  dsimp only at h5
                  rw [hevR, hxRe] at h5
                  exact h5
            obtain ⟨l1, l2, hl12, hsf⟩ := setFirstById_decomp
              (applyPatch (addEventRaw t0 ne1).2
                (patchOfEvent ne2 (addEventRaw t0 ne1).2.id)) hlook1
            have hcl : l1.countP (keyMatchB ne2) = 0 ∧
                l2.countP (keyMatchB ne2) = 0 := by
              have h7 : t1.events.countP (keyMatchB ne2) =
                  l1.countP (keyMatchB ne2) +
                  (l2.countP (keyMatchB ne2) + 1) := by
                rw [hl12, List.countP_append, List.countP_cons]
                rw [if_pos hkey3]
              rw [hcount1] at h7
              omega
            have hcsf : (setFirstById t1.events (addEventRaw t0 ne1).2.id
                (applyPatch (addEventRaw t0 ne1).2
                  (patchOfEvent ne2 (addEventRaw t0 ne1).2.id))).countP
                (keyMatchB ne2) = 1 := by
              rw [hsf, List.countP_append, List.countP_cons, hcl.1, hcl.2]
              rw [if_pos hkeyM]
            constructor
            · have h8 := hperm2.countP_eq (keyMatchB ne2)
              rw [countP_key_strip hsub2, countP_key_strip hsub2] at h8
              rw [h8, hcsf]
            · refine mem_of_strip_perm hperm2 ?_ hmne
              rw [hsf]
              simp
        -- final conclusions
        refine ⟨hcm.1, ?_⟩
        intro x hx hkx
        have hxm := c6_unique hcm.1 hcm.2 hkeyM x hx hkx
        subst hxm
        refine ⟨?_, hmE, hmS, hmT, ?_, ?_, ?_, ?_, ?_, ?_, ?_⟩
        · rw [hmid, hid3]
        · intro w hw
          show (ne2.value.or (addEventRaw t0 ne1).2.value) = some w
          rw [hw]
          rfl
        · intro w hw
          show (ne2.text.or (addEventRaw t0 ne1).2.text) = some w
          rw [hw]
          rfl
        · intro w hw
          show (ne2.duration.or (addEventRaw t0 ne1).2.duration) = some w
          rw [hw]
          rfl
        · intro w hw
          show (ne2.velocity.or (addEventRaw t0 ne1).2.velocity) = some w
          rw [hw]
          rfl
        · intro w hw
          show (ne2.controllerType.or
            (addEventRaw t0 ne1).2.controllerType) = some w
          rw [hw]
          rfl
        · intro w hw
          show (ne2.microsecondsPerBeat.or
            (addEventRaw t0 ne1).2.microsecondsPerBeat) = some w
          rw [hw]
          rfl
        · intro w hw
          show (ne2.channel.or (addEventRaw t0 ne1).2.channel) = some w
          rw [hw]
          rfl
  case _ m1 ms1 hfl1' =>
    rw [hfl0] at hfl1'
    cases hfl1'

end Track

namespace Track

theorem trackC6_witness :
    exVolTrack2.events.countP (keyMatchB exVolCand2) = 1 :=
  (trackC6 4 4 Track.empty exVolCand exVolCand2 3 exVolTrack1 exVolTrack2
    exVolCand exVolCand2 (by unfold IdsNodup; decide)
    (by intro x hx; cases hx) rfl (by decide) rfl rfl rfl
    (by intro x hx; cases hx) (by decide) (by decide)).1

end Track
